import Mathlib

/-!
Verification of a fixed-width unsigned big-integer library (class `number`
in number.hpp) and its sign-magnitude signed wrapper (class `integer` in
integer.hpp).

A `number<TDigit, NDigits, NDigitMax>` value is modelled as a `List Nat`
of length `NDigits` holding the digits least-significant first.  The C++
class stores the digits most-significant first but all arithmetic accesses
them through `digit(power)` / `set_digit(power, value)`, which index from
the least-significant end, so the least-significant-first list mirrors the
code exactly (`digit l i = l.getD i 0`).  The base is `B = NDigitMax + 1`.

Machine integers never overflow in the modelled intermediate expressions
(the C++ stores them in `big_digit_type`, chosen strictly wider than the
digit type), so intermediate arithmetic is modelled on `Nat` directly; the
places where the C++ wraps (digit storage `% base`, dropped carries,
dropped high digits, conversion to a w-bit native integer) are modelled
with explicit `% B` / `% 2 ^ w` and explicit dropping.
-/

namespace Number

variable (B : Nat)

/-- Numeric value of a least-significant-first digit list:
`val [d0, d1, ...] = d0 + B * d1 + B^2 * d2 + ...`. -/
def val : List Nat → Nat
  | [] => 0
  | d :: ds => d + B * val ds

/-- Class invariant of `number`: every stored digit is below the base. -/
def Valid (l : List Nat) : Prop := ∀ d ∈ l, d < B

instance (l : List Nat) : Decidable (Valid B l) :=
  List.decidableBAll (fun d => d < B) l

/-- Embeds `number::digit(power)`: the digit whose place value is `B ^ i`;
reads past the stored width yield 0. -/
def digit (l : List Nat) (i : Nat) : Nat := l.getD i 0

/-- Embeds `number::set_digit(power, value)`: stores `value % B` at place `i`;
a no-op for places past the stored width. -/
def set_digit (l : List Nat) (i v : Nat) : List Nat :=
  if i < l.length then l.set i (v % B) else l

/-- Embeds `number::most_significant_digit()`: the count of digits up to and
including the highest nonzero digit (0 for an all-zero value). -/
def most_significant_digit : List Nat → Nat
  | [] => 0
  | d :: ds =>
    let m := most_significant_digit ds
    if m = 0 then (if d = 0 then 0 else 1) else m + 1

/-- Embeds the constructor `number(T value)` / `operator=(T value)`:
base-B decomposition of a native unsigned integer into `len` digits,
least-significant first (excess high digits of the value are dropped). -/
def ofNat : Nat → Nat → List Nat
  | 0, _ => []
  | len + 1, n => n % B :: ofNat len (n / B)

/-- Carry-propagating digit-wise sum, least significant digit first
(the loop body of `number::operator+`): `carry = digit_result >= base`,
stored digit is `digit_result % base`.  The final carry is dropped. -/
def addAux : Nat → List Nat → List Nat → List Nat
  | _, [], _ => []
  | c, a :: as, bs =>
    let t := a + bs.headD 0 + c
    t % B :: addAux (if B ≤ t then 1 else 0) as bs.tail

/-- Embeds `number::operator+`. -/
def add (x y : List Nat) : List Nat := addAux B 0 x y

/-- Borrow-propagating digit-wise difference, least significant digit first
(the loop body of `number::operator-`): `digit_result = (base + a) - (borrow + b)`,
`borrow = digit_result < base`, stored digit is `digit_result % base`. -/
def subAux : Nat → List Nat → List Nat → List Nat
  | _, [], _ => []
  | c, a :: as, bs =>
    let t := (B + a) - (c + bs.headD 0)
    t % B :: subAux (if t < B then 1 else 0) as bs.tail

/-- Embeds `number::operator-`. -/
def sub (x y : List Nat) : List Nat := subAux B 0 x y

/-- Lexicographic comparison of most-significant-first digit sequences:
the defaulted `operator<=>` of `number`, which compares the underlying
`std::array` (stored most-significant digit first). -/
def cmpMSF : List Nat → List Nat → Ordering
  | [], [] => .eq
  | [], _ :: _ => .lt
  | _ :: _, [] => .gt
  | a :: as, b :: bs => if a < b then .lt else if b < a then .gt else cmpMSF as bs

/-- Three-way comparison on the least-significant-first representation:
reversing recovers the stored (most-significant-first) order. -/
def cmp (x y : List Nat) : Ordering := cmpMSF x.reverse y.reverse

/-- Boolean strict order `x < y` derived from the comparison. -/
def ltN (x y : List Nat) : Bool :=
  match cmp x y with
  | .lt => true
  | _ => false

/-- Inner loop of `number::operator*` (schoolbook multiplication): for
`cnt` remaining values of `i`, compute
`t = digit(i) * rhs.digit(j) + w.digit(i + j) + k`, store `t % base` at
place `i + j` and carry `k = t / base`.  Returns the updated accumulator
and the final carry. -/
def mulInner (x : List Nat) (yj j : Nat) : Nat → Nat → List Nat → Nat → List Nat × Nat
  | 0, _, w, k => (w, k)
  | cnt + 1, i, w, k =>
    let t := digit x i * yj + digit w (i + j) + k
    mulInner x yj j cnt (i + 1) (set_digit B w (i + j) (t % B)) (t / B)

/-- Outer loop of `number::operator*`: for `cnt` remaining values of `j`,
run the inner loop over `m` digits of `x` and store the final carry at
place `j + m`. -/
def mulOuter (x y : List Nat) (m : Nat) : Nat → Nat → List Nat → List Nat
  | 0, _, w => w
  | cnt + 1, j, w =>
    let p := mulInner B x (digit y j) j m 0 w 0
    mulOuter x y m cnt (j + 1) (set_digit B p.1 (j + m) p.2)

/-- Embeds `number::operator*`: `n = rhs.most_significant_digit()`,
`m = most_significant_digit()`, accumulator starts as the zero number. -/
def mul (x y : List Nat) : List Nat :=
  mulOuter B x y (most_significant_digit x) (most_significant_digit y) 0
    (List.replicate x.length 0)

/-- First correction loop of `number::operator/`:
`while (qh >= base || qh * den.digit(n-2) > base * rh + num.digit(j+n-2))
 { --qh; rh += den.digit(n-1); if (rh >= base) break; }`.
Structural recursion on `qh`; when `qh = 0` both disjuncts of the loop
condition are false in the C++ as well, so returning immediately is
faithful. -/
def phase1 (d1 d2 u2 : Nat) : Nat → Nat → Nat × Nat
  | 0, rh => (0, rh)
  | qh + 1, rh =>
    if B ≤ qh + 1 ∨ B * rh + u2 < (qh + 1) * d2 then
      let rh2 := rh + d1
      if B ≤ rh2 then (qh, rh2) else phase1 d1 d2 u2 qh rh2
    else (qh + 1, rh)

/-- Second correction loop of `number::operator/`:
`while (sig < trial) { --qh; trial = big_number(qh) * den; }` with
`trial = big_number(qh) * den`.  Structural recursion on `qh`; for
`qh = 0` the trial product is the zero number and the C++ loop condition
`sig < trial` is false, so returning 0 is faithful. -/
def phase2 (L : Nat) (den sig : List Nat) : Nat → Nat
  | 0 => 0
  | qh + 1 =>
    if ltN sig (mul B (ofNat B (L + 1) (qh + 1)) den) then phase2 L den sig qh
    else qh + 1

/-- The window `sig` of `number::operator/`: the top `n + 1` digits of the
working dividend at window position `j`, copied into a fresh (N+1)-digit
number by `for (int i = j + n; i >= j; i--) sig.set_digit(i - j, num.digit(i))`. -/
def divSig (L n j : Nat) (num : List Nat) : List Nat :=
  (List.range (n + 1)).foldl
    (fun s i => set_digit B s i (digit num (j + i))) (List.replicate (L + 1) 0)

/-- The corrected quotient digit of `number::operator/` at window position
`j`: the initial estimate `qh0` / `rh0` from the top two digits of the
window over the leading divisor digit, followed by the two correction
loops.  Index expressions of the form `j + n - 2` are computed in unsigned
arithmetic in the C++, so when they would go negative they wrap to a huge
index and `digit` yields 0. -/
def divQhat (L : Nat) (den : List Nat) (n j : Nat) (num : List Nat) : Nat :=
  let u0 := digit num (j + n)
  let u1 := digit num (j + n - 1)
  let d1 := digit den (n - 1)
  let d2 := if 2 ≤ n then digit den (n - 2) else 0
  let u2 := if 2 ≤ j + n then digit num (j + n - 2) else 0
  let qh0 := (u0 * B + u1) / d1
  let rh0 := (u0 * B + u1) % d1
  phase2 B L den (divSig B L n j num) (phase1 B d1 d2 u2 qh0 rh0).1

/-- One iteration of the quotient-digit loop of `number::operator/` for
window position `j`: compute the corrected quotient digit, write it into
the quotient, and replace the dividend window by `sig - trial` via
`for (int i = j + n; i >= j; i--) num.set_digit(i, diff.digit(i - j))`. -/
def divStep (L : Nat) (den : List Nat) (n j : Nat) (num q : List Nat) :
    List Nat × List Nat :=
  let qh := divQhat B L den n j num
  let trial := mul B (ofNat B (L + 1) qh) den
  let diff := sub B (divSig B L n j num) trial
  let num2 := (List.range (n + 1)).foldl
    (fun nu i => set_digit B nu (j + i) (digit diff i)) num
  (num2, set_digit B q j qh)

/-- The quotient-digit loop of `number::operator/`:
`for (int j = m; j >= 0; --j) ...` — the index `j` runs from `m` down to 0
inclusive. -/
def divGo (L : Nat) (den : List Nat) (n : Nat) : Nat → List Nat → List Nat → List Nat
  | 0, num, q => (divStep B L den n 0 num q).2
  | j + 1, num, q =>
    let s := divStep B L den n (j + 1) num q
    divGo L den n j s.1 s.2

/-- The general path of `number::operator/`: normalization by
`norm = base / (leading digit of rhs + 1)` over (N+1)-digit intermediates
(`big_number(*this)` zero-extends by one high digit, modelled as `++ [0]`),
then the quotient-digit loop. -/
def divMain (L : Nat) (x y : List Nat) : List Nat :=
  let t := digit y (most_significant_digit y - 1)
  let norm := ofNat B (L + 1) (B / (t + 1))
  let num := mul B (x ++ [0]) norm
  let den := mul B (y ++ [0]) norm
  let n := most_significant_digit den
  let m := most_significant_digit num - n
  divGo B L den n m num (List.replicate L 0)

/-- Embeds `number::operator/`: the special-cased shortcuts followed by the
general long-division path. -/
def divN (x y : List Nat) : List Nat :=
  let L := x.length
  let zero := ofNat B L 0
  let one := ofNat B L 1
  if x = zero ∨ y = zero ∨ ltN x y then zero
  else if y = x then one
  else if y = one then x
  else divMain B L x y

/-- Embeds `number::operator%`: `*this - ((*this / rhs) * rhs)`. -/
def modN (x y : List Nat) : List Nat := sub B x (mul B (divN B x y) y)

/-- Embeds `number::pow`, with an explicit fuel bound on the loop
`while (exponent != number(0U))`.  The C++ tests `exponent.digit(0) & 1`
(the low bit of the least-significant digit, i.e. `digit e 0 % 2`),
multiplies the accumulator by the running square when it is set, then
divides the exponent by `number(2U)` and squares.  Returns `none` if the
fuel runs out before the exponent reaches zero. -/
def powF : Nat → List Nat → List Nat → List Nat → Option (List Nat)
  | 0, r, _, e => if e = List.replicate e.length 0 then some r else none
  | fuel + 1, r, b, e =>
    if e = List.replicate e.length 0 then some r
    else
      powF fuel (if digit e 0 % 2 = 1 then mul B r b else r) (mul B b b)
        (divN B e (ofNat B e.length 2))

/-- Embeds the w-bit truncating conversion `number::operator T` (loop
state): `value += power * digit; power *= base;` in w-bit arithmetic,
breaking out of the loop as soon as the updated power compares below the
previous one. -/
def convGo (w : Nat) : List Nat → Nat → Nat → Nat
  | [], v, _ => v
  | d :: ds, v, p =>
    let v2 := (v + p * d) % 2 ^ w
    let p2 := p * B % 2 ^ w
    if p2 < p then v2 else convGo w ds v2 p2

/-- Embeds `number::operator T` for a `w`-bit unsigned native target. -/
def conv (w : Nat) (l : List Nat) : Nat := convGo B w l 0 1

/-- Embeds the `decode_char` lambda of `number::from_string`: digits `0`-`9`
and letters `a`-`f` / `A`-`F` decode to their value, which must be strictly
below the base; everything else fails. -/
def decode_char (base : Nat) (c : Char) : Option Nat :=
  let value : Option Nat :=
    if '0' ≤ c ∧ c ≤ '9' then some (c.toNat - '0'.toNat)
    else if 'a' ≤ c ∧ c ≤ 'f' then some (10 + (c.toNat - 'a'.toNat))
    else if 'A' ≤ c ∧ c ≤ 'F' then some (10 + (c.toNat - 'A'.toNat))
    else none
  match value with
  | some v => if v < base then some v else none
  | none => none

/-- Loop of `number::from_string`, walking the input from its last
character to its first (the C++ iterates with `rbegin`): state is the
accumulated `result` and the running `power`, updated by
`result += number(value) * power; power *= base_number`. -/
def fromStringGo (L base : Nat) : List Char → List Nat → List Nat → Option (List Nat)
  | [], result, _ => some result
  | c :: rest, result, power =>
    match decode_char base c with
    | some v =>
      fromStringGo L base rest (add B result (mul B (ofNat B L v) power))
        (mul B power (ofNat B L base))
    | none => none

/-- Embeds `number::from_string` for a string given as a character list
(most-significant character first, as written). -/
def from_string (L base : Nat) (s : List Char) : Option (List Nat) :=
  fromStringGo B L base s.reverse (List.replicate L 0) (ofNat B L 1)

/-- Character emitted by `number::to_string` for one extracted digit:
`'0' + d` for `d ≤ 9`, else `'a' + (d - 10)`. -/
def digitChar (d : Nat) : Char :=
  if d ≤ 9 then Char.ofNat ('0'.toNat + d) else Char.ofNat ('a'.toNat + (d - 10))

/-- Embeds `number::to_string` with an explicit fuel bound on the loop
`while (n != number(0U))`.  Each step extracts
`static_cast<unsigned>(n % b)` (the 32-bit truncating conversion), appends
its character, and divides `n` by `b`; the collected characters are
reversed at the end, which the recursion realises by appending the current
(least-significant) character after the recursive result.  Returns `none`
if the fuel runs out before `n` reaches zero — the C++ loop then never
terminates. -/
def toStringF (b : List Nat) : Nat → List Nat → Option (List Char)
  | 0, n => if n = List.replicate n.length 0 then some [] else none
  | fuel + 1, n =>
    if n = List.replicate n.length 0 then some []
    else
      match toStringF b fuel (divN B n b) with
      | some s => some (s ++ [digitChar (conv B 32 (modN B n b))])
      | none => none

/-! Basic lemmas about values, digits and construction. -/

theorem val_nil : val B [] = 0 := rfl

theorem val_cons (d : Nat) (ds : List Nat) : val B (d :: ds) = d + B * val B ds := rfl

theorem valid_nil : Valid B [] := by intro d hd; cases hd

theorem valid_cons {d : Nat} {ds : List Nat} (hd : d < B) (hds : Valid B ds) :
    Valid B (d :: ds) := by
  intro e he
  rcases List.mem_cons.mp he with h | h
  · exact h ▸ hd
  · exact hds e h

theorem valid_of_cons {d : Nat} {ds : List Nat} (h : Valid B (d :: ds)) :
    d < B ∧ Valid B ds :=
  ⟨h d (List.mem_cons_self d ds), fun e he => h e (List.mem_cons_of_mem d he)⟩

theorem valid_replicate (hB : 0 < B) (L : Nat) : Valid B (List.replicate L 0) := by
  intro d hd
  rw [List.eq_of_mem_replicate hd]
  exact hB

theorem val_replicate_zero (L : Nat) : val B (List.replicate L 0) = 0 := by
  induction L with
  | zero => rfl
  | succ n ih => simp [List.replicate_succ, val_cons, ih]

theorem val_lt (h : Valid B l) : val B l < B ^ l.length := by
  induction l with
  | nil => simp [val_nil]
  | cons d ds ih =>
    obtain ⟨hd, hds⟩ := valid_of_cons B h
    have hv := ih hds
    have hB : 0 < B := Nat.pos_of_ne_zero (by rintro rfl; omega)
    calc d + B * val B ds < B + B * val B ds := by omega
    _ ≤ B + B * (B ^ ds.length - 1) := by
        have : val B ds ≤ B ^ ds.length - 1 := by omega
        exact Nat.add_le_add_left (Nat.mul_le_mul_left B this) B
    _ ≤ B ^ (ds.length + 1) := by
        have hp : 1 ≤ B ^ ds.length := Nat.one_le_pow _ _ hB
        have hp2 : B ≤ B * B ^ ds.length := Nat.le_mul_of_pos_right B hp
        rw [Nat.mul_sub, Nat.mul_one, pow_succ, Nat.mul_comm (B ^ ds.length) B]
        omega
    _ = B ^ (d :: ds).length := by simp

theorem digit_lt (hB : 0 < B) (h : Valid B l) (i : Nat) : digit l i < B := by
  induction l generalizing i with
  | nil => simpa [digit, List.getD] using hB
  | cons d ds ih =>
    obtain ⟨hd, hds⟩ := valid_of_cons B h
    cases i with
    | zero => simpa [digit] using hd
    | succ j => simpa [digit] using ih hds j

theorem digit_eq_div_mod (hB : 0 < B) (h : Valid B l) (i : Nat) :
    digit l i = val B l / B ^ i % B := by
  induction l generalizing i with
  | nil => simp [digit, val_nil, List.getD, Nat.zero_div]
  | cons d ds ih =>
    obtain ⟨hd, hds⟩ := valid_of_cons B h
    cases i with
    | zero =>
      simp [digit, val_cons, pow_zero, Nat.add_mul_mod_self_left, Nat.mod_eq_of_lt hd]
    | succ j =>
      have hstep : val B (d :: ds) / B ^ (j + 1) = val B ds / B ^ j := by
        rw [val_cons, pow_succ, Nat.mul_comm (B ^ j) B, ← Nat.div_div_eq_div_mul]
        congr 1
        rw [Nat.add_mul_div_left _ _ hB, Nat.div_eq_of_lt hd, Nat.zero_add]
      simpa [digit, hstep] using ih hds j

theorem digit_eq_zero_of_val_lt (hB : 0 < B) (h : Valid B l) {i : Nat}
    (hv : val B l < B ^ i) : digit l i = 0 := by
  rw [digit_eq_div_mod B hB h, Nat.div_eq_of_lt hv, Nat.zero_mod]

theorem val_inj (h1 : Valid B x) (h2 : Valid B y) (hlen : x.length = y.length)
    (hval : val B x = val B y) : x = y := by
  induction x generalizing y with
  | nil => cases y with
    | nil => rfl
    | cons b bs => simp at hlen
  | cons a as ih =>
    cases y with
    | nil => simp at hlen
    | cons b bs =>
      obtain ⟨ha, has⟩ := valid_of_cons B h1
      obtain ⟨hb, hbs⟩ := valid_of_cons B h2
      have hB : 0 < B := Nat.pos_of_ne_zero (by rintro rfl; omega)
      have hhead : a = b := by
        have := congrArg (· % B) hval
        simpa [val_cons, Nat.add_mul_mod_self_left, Nat.mod_eq_of_lt ha,
          Nat.mod_eq_of_lt hb] using this
      have htail : val B as = val B bs := by
        have h1' : (a + B * val B as) / B = val B as := by
          rw [Nat.add_mul_div_left _ _ hB, Nat.div_eq_of_lt ha, Nat.zero_add]
        have h2' : (b + B * val B bs) / B = val B bs := by
          rw [Nat.add_mul_div_left _ _ hB, Nat.div_eq_of_lt hb, Nat.zero_add]
        have := congrArg (· / B) hval
        simpa [val_cons, h1', h2'] using this
      rw [hhead, ih has hbs (by simpa using hlen) htail]

theorem val_eq_zero_iff (hB : 0 < B) (h : Valid B l) :
    val B l = 0 ↔ l = List.replicate l.length 0 := by
  constructor
  · intro hv
    exact val_inj B h (valid_replicate B hB _) (by simp) (by rw [hv, val_replicate_zero])
  · intro hl
    rw [hl, val_replicate_zero]

theorem length_ofNat (len n : Nat) : (ofNat B len n).length = len := by
  induction len generalizing n with
  | zero => rfl
  | succ k ih => simp [ofNat, ih]

theorem valid_ofNat (hB : 0 < B) (len n : Nat) : Valid B (ofNat B len n) := by
  induction len generalizing n with
  | zero => exact valid_nil B
  | succ k ih => exact valid_cons B (Nat.mod_lt _ hB) (ih _)

theorem val_ofNat (hB : 0 < B) (len n : Nat) : val B (ofNat B len n) = n % B ^ len := by
  induction len generalizing n with
  | zero => simp [ofNat, val_nil, Nat.mod_one]
  | succ k ih =>
    rw [ofNat, val_cons, ih, pow_succ, Nat.mul_comm (B ^ k) B, Nat.mod_mul]

theorem ofNat_zero (len : Nat) : ofNat B len 0 = List.replicate len 0 := by
  induction len with
  | zero => rfl
  | succ k ih => simp [ofNat, List.replicate_succ, ih]

/-- Splitting a remainder modulo `B ^ (k + 1)` into a low digit and a
reduced high part. -/
theorem mod_pow_split {r x k : Nat} (hr : r < B) :
    (r + B * x) % B ^ (k + 1) = r + B * (x % B ^ k) := by
  have hB : 0 < B := Nat.pos_of_ne_zero (by rintro rfl; omega)
  rw [pow_succ, Nat.mul_comm (B ^ k) B, Nat.mod_mul, Nat.add_mul_mod_self_left,
    Nat.add_mul_div_left _ _ hB, Nat.mod_eq_of_lt hr, Nat.div_eq_of_lt hr, Nat.zero_add]

/-! Lemmas about `most_significant_digit`. -/

theorem digit_cons_zero (d : Nat) (ds : List Nat) : digit (d :: ds) 0 = d := rfl

theorem digit_cons_succ (d : Nat) (ds : List Nat) (i : Nat) :
    digit (d :: ds) (i + 1) = digit ds i := rfl

theorem msd_cons (d : Nat) (ds : List Nat) :
    most_significant_digit (d :: ds) =
      if most_significant_digit ds = 0 then (if d = 0 then 0 else 1)
      else most_significant_digit ds + 1 := rfl

theorem msd_le_length (l : List Nat) : most_significant_digit l ≤ l.length := by
  induction l with
  | nil => exact Nat.le_refl 0
  | cons d ds ih =>
    rw [msd_cons, List.length_cons]
    split
    · split <;> omega
    · omega

theorem digit_of_msd_le (l : List Nat) :
    ∀ i, most_significant_digit l ≤ i → digit l i = 0 := by
  induction l with
  | nil => intro i _; simp [digit, List.getD]
  | cons d ds ih =>
    intro i hi
    rw [msd_cons] at hi
    by_cases hm : most_significant_digit ds = 0
    · by_cases hd : d = 0
      · rw [if_pos hm, if_pos hd] at hi
        cases i with
        | zero => rw [digit_cons_zero]; exact hd
        | succ k => rw [digit_cons_succ]; exact ih k (by omega)
      · rw [if_pos hm, if_neg hd] at hi
        cases i with
        | zero => omega
        | succ k => rw [digit_cons_succ]; exact ih k (by omega)
    · rw [if_neg hm] at hi
      cases i with
      | zero => omega
      | succ k => rw [digit_cons_succ]; exact ih k (by omega)

theorem val_lt_pow_msd (hB : 0 < B) (h : Valid B l) :
    val B l < B ^ most_significant_digit l := by
  induction l with
  | nil => exact Nat.one_le_pow 0 B hB
  | cons d ds ih =>
    obtain ⟨hd, hds⟩ := valid_of_cons B h
    have hv := ih hds
    rw [msd_cons, val_cons]
    by_cases hm : most_significant_digit ds = 0
    · rw [hm] at hv
      have hds0 : val B ds = 0 := by simpa using hv
      by_cases hd0 : d = 0
      · rw [if_pos hm, if_pos hd0, hd0, hds0]
        simpa using Nat.one_le_pow 0 B hB
      · rw [if_pos hm, if_neg hd0, hds0, pow_one]
        omega
    · rw [if_neg hm]
      have hp2 : B ≤ B * B ^ most_significant_digit ds :=
        Nat.le_mul_of_pos_right B (Nat.one_le_pow _ _ hB)
      calc d + B * val B ds < B + B * val B ds := by omega
      _ ≤ B + B * (B ^ most_significant_digit ds - 1) := by
          have : val B ds ≤ B ^ most_significant_digit ds - 1 := by omega
          exact Nat.add_le_add_left (Nat.mul_le_mul_left B this) B
      _ ≤ B ^ (most_significant_digit ds + 1) := by
          rw [Nat.mul_sub, Nat.mul_one, pow_succ, Nat.mul_comm (B ^ _) B]
          omega

theorem pow_msd_le_val (hm : most_significant_digit l ≠ 0) :
    B ^ (most_significant_digit l - 1) ≤ val B l := by
  induction l with
  | nil => simp [most_significant_digit] at hm
  | cons d ds ih =>
    rw [msd_cons] at hm ⊢
    by_cases h0 : most_significant_digit ds = 0
    · by_cases hd : d = 0
      · rw [if_pos h0, if_pos hd] at hm
        omega
      · rw [if_pos h0, if_neg hd, pow_zero, val_cons]
        omega
    · rw [if_neg h0]
      have hih := ih h0
      rw [val_cons, Nat.add_sub_cancel]
      have hstep : B ^ most_significant_digit ds =
          B * B ^ (most_significant_digit ds - 1) := by
        rw [← pow_succ']
        congr 1
        omega
      rw [hstep]
      have h2 : B * B ^ (most_significant_digit ds - 1) ≤ B * val B ds :=
        Nat.mul_le_mul_left B hih
      omega

theorem msd_eq_zero_iff (hB : 0 < B) (h : Valid B l) :
    most_significant_digit l = 0 ↔ val B l = 0 := by
  constructor
  · intro hm
    have := val_lt_pow_msd B hB h
    rw [hm] at this
    simpa using this
  · intro hv
    by_contra hm
    have := pow_msd_le_val B hm
    rw [hv] at this
    have h1 : (1 : Nat) ≤ 0 := le_trans (Nat.one_le_pow _ _ hB) this
    omega

theorem msd_le_of_val_lt (hB : 0 < B) (h : Valid B l) {k : Nat}
    (hv : val B l < B ^ k) : most_significant_digit l ≤ k := by
  by_contra hk
  have h1 : k ≤ most_significant_digit l - 1 := by omega
  have hm : most_significant_digit l ≠ 0 := by omega
  have h2 := pow_msd_le_val B hm
  have h3 : B ^ k ≤ B ^ (most_significant_digit l - 1) :=
    Nat.pow_le_pow_right hB h1
  omega

theorem msd_mono (hB : 0 < B) (hx : Valid B x) (hy : Valid B y)
    (hv : val B x ≤ val B y) :
    most_significant_digit x ≤ most_significant_digit y := by
  have h1 := val_lt_pow_msd B hB hy
  exact msd_le_of_val_lt B hB hx (Nat.lt_of_le_of_lt hv h1)

/-! Lemmas about addition and subtraction. -/

theorem length_addAux : ∀ (c : Nat) (as bs : List Nat),
    (addAux B c as bs).length = as.length := by
  intro c as
  induction as generalizing c with
  | nil => intro bs; rfl
  | cons a as ih => intro bs; simpa [addAux] using ih _ bs.tail

theorem length_add (x y : List Nat) : (add B x y).length = x.length :=
  length_addAux B 0 x y

theorem valid_addAux (hB : 0 < B) : ∀ (c : Nat) (as bs : List Nat),
    Valid B (addAux B c as bs) := by
  intro c as
  induction as generalizing c with
  | nil => intro bs; exact valid_nil B
  | cons a as ih =>
    intro bs
    exact valid_cons B (Nat.mod_lt _ hB) (ih _ bs.tail)

theorem valid_add (hB : 0 < B) (x y : List Nat) : Valid B (add B x y) :=
  valid_addAux B hB 0 x y

theorem val_addAux (hB : 0 < B) :
    ∀ (as bs : List Nat) (c : Nat), Valid B as → Valid B bs →
    as.length = bs.length → c ≤ 1 →
    val B (addAux B c as bs) = (c + val B as + val B bs) % B ^ as.length := by
  intro as
  induction as with
  | nil =>
    intro bs c _ _ _ hc
    simp [addAux, val_nil, Nat.mod_one]
  | cons a as ih =>
    intro bs c hva hvb hlen hc
    cases bs with
    | nil => simp at hlen
    | cons b bs =>
      obtain ⟨ha, has⟩ := valid_of_cons B hva
      obtain ⟨hb, hbs⟩ := valid_of_cons B hvb
      show val B ((a + b + c) % B :: addAux B (if B ≤ a + b + c then 1 else 0) as bs)
        = (c + val B (a :: as) + val B (b :: bs)) % B ^ (a :: as).length
      have hcarry : (if B ≤ a + b + c then 1 else 0) = (a + b + c) / B := by
        rcases Nat.lt_or_ge (a + b + c) B with h | h
        · rw [if_neg (by omega), Nat.div_eq_of_lt h]
        · have h2 : a + b + c - B < B := by omega
          rw [if_pos h, Nat.div_eq_sub_div hB h, Nat.div_eq_of_lt h2]
      have key : (c + val B (a :: as) + val B (b :: bs)) % B ^ (a :: as).length
          = (a + b + c) % B
            + B * (((a + b + c) / B + val B as + val B bs) % B ^ as.length) := by
        rw [val_cons, val_cons, List.length_cons]
        rw [show c + (a + B * val B as) + (b + B * val B bs)
              = (a + b + c) % B + B * ((a + b + c) / B + val B as + val B bs) from by
          calc c + (a + B * val B as) + (b + B * val B bs)
              = (a + b + c) + B * (val B as + val B bs) := by ring
          _ = (B * ((a + b + c) / B) + (a + b + c) % B) + B * (val B as + val B bs) := by
              rw [Nat.div_add_mod]
          _ = (a + b + c) % B + B * ((a + b + c) / B + val B as + val B bs) := by ring]
        exact mod_pow_split B (Nat.mod_lt _ hB)
      rw [val_cons, ih bs _ has hbs (by simpa using hlen) (by split <;> omega), hcarry, key]

theorem val_add (hB : 0 < B) (hx : Valid B x) (hy : Valid B y)
    (hlen : x.length = y.length) :
    val B (add B x y) = (val B x + val B y) % B ^ x.length := by
  rw [add, val_addAux B hB x y 0 hx hy hlen (by omega), Nat.zero_add]

theorem length_subAux : ∀ (c : Nat) (as bs : List Nat),
    (subAux B c as bs).length = as.length := by
  intro c as
  induction as generalizing c with
  | nil => intro bs; rfl
  | cons a as ih => intro bs; simpa [subAux] using ih _ bs.tail

theorem length_sub (x y : List Nat) : (sub B x y).length = x.length :=
  length_subAux B 0 x y

theorem valid_subAux (hB : 0 < B) : ∀ (c : Nat) (as bs : List Nat),
    Valid B (subAux B c as bs) := by
  intro c as
  induction as generalizing c with
  | nil => intro bs; exact valid_nil B
  | cons a as ih =>
    intro bs
    exact valid_cons B (Nat.mod_lt _ hB) (ih _ bs.tail)

theorem valid_sub (hB : 0 < B) (x y : List Nat) : Valid B (sub B x y) :=
  valid_subAux B hB 0 x y

theorem val_subAux (hB : 0 < B) :
    ∀ (as bs : List Nat) (c : Nat), Valid B as → Valid B bs →
    as.length = bs.length → c ≤ 1 →
    val B (subAux B c as bs)
      = (val B as + B ^ as.length - (val B bs + c)) % B ^ as.length := by
  intro as
  induction as with
  | nil =>
    intro bs c _ _ _ _
    simp [subAux, val_nil, Nat.mod_one]
  | cons a as ih =>
    intro bs c hva hvb hlen hc
    cases bs with
    | nil => simp at hlen
    | cons b bs =>
      obtain ⟨ha, has⟩ := valid_of_cons B hva
      obtain ⟨hb, hbs⟩ := valid_of_cons B hvb
      show val B ((B + a - (c + b)) % B
          :: subAux B (if B + a - (c + b) < B then 1 else 0) as bs)
        = (val B (a :: as) + B ^ (a :: as).length - (val B (b :: bs) + c))
            % B ^ (a :: as).length
      have hklen : bs.length = as.length := by simpa using hlen.symm
      have hvas := val_lt B has
      have hvbs := val_lt B hbs
      rw [hklen] at hvbs
      have hpow : B * val B bs + B ≤ B ^ (as.length + 1) := by
        have h1 : val B bs + 1 ≤ B ^ as.length := by omega
        have h2 : B * (val B bs + 1) ≤ B * B ^ as.length := Nat.mul_le_mul_left B h1
        rw [Nat.mul_add, Nat.mul_one] at h2
        rw [pow_succ, Nat.mul_comm (B ^ as.length) B]
        omega
      rw [val_cons, ih bs _ has hbs (by simpa using hlen) (by split <;> omega)]
      have hcb : c + b ≤ B + a := by omega
      have hpow2 : B * val B bs + B ≤ B * B ^ as.length := by
        have h1 : val B bs + 1 ≤ B ^ as.length := by omega
        have h2 : B * (val B bs + 1) ≤ B * B ^ as.length := Nat.mul_le_mul_left B h1
        rw [Nat.mul_add, Nat.mul_one] at h2
        exact h2
      have key : val B (a :: as) + B ^ (a :: as).length - (val B (b :: bs) + c)
          = (B + a - (c + b)) % B
            + B * (val B as + B ^ as.length
                - (val B bs + (if B + a - (c + b) < B then 1 else 0))) := by
        rw [val_cons, val_cons, List.length_cons, pow_succ,
          Nat.mul_comm (B ^ as.length) B]
        rcases Nat.lt_or_ge (B + a - (c + b)) B with ht | ht
        · rw [if_pos ht, Nat.mod_eq_of_lt ht, Nat.mul_sub, Nat.mul_add, Nat.mul_add,
            Nat.mul_one]
          omega
        · rw [if_neg (by omega)]
          have ht2 : B + a - (c + b) - B < B := by omega
          rw [Nat.mod_eq_sub_mod ht, Nat.mod_eq_of_lt ht2, Nat.mul_sub, Nat.mul_add,
            Nat.mul_add, Nat.mul_zero]
          omega
      rw [key, List.length_cons, mod_pow_split B (Nat.mod_lt _ hB)]

theorem val_sub (hB : 0 < B) (hx : Valid B x) (hy : Valid B y)
    (hlen : x.length = y.length) :
    val B (sub B x y) = (val B x + B ^ x.length - val B y) % B ^ x.length := by
  rw [sub, val_subAux B hB x y 0 hx hy hlen (by omega), Nat.add_zero]

theorem val_sub_of_le (hB : 0 < B) (hx : Valid B x) (hy : Valid B y)
    (hlen : x.length = y.length) (hle : val B y ≤ val B x) :
    val B (sub B x y) = val B x - val B y := by
  rw [val_sub B hB hx hy hlen]
  have h1 : val B x < B ^ x.length := val_lt B hx
  have h2 : val B x + B ^ x.length - val B y = B ^ x.length + (val B x - val B y) := by
    omega
  rw [h2, Nat.add_mod_left, Nat.mod_eq_of_lt (by omega)]

/-! Value of list append / reverse, and the comparison operator. -/

theorem val_append (l1 l2 : List Nat) :
    val B (l1 ++ l2) = val B l1 + B ^ l1.length * val B l2 := by
  induction l1 with
  | nil => simp [val_nil]
  | cons d ds ih =>
    simp only [List.cons_append, val_cons, ih, List.length_cons]
    ring

theorem valid_append {l1 l2 : List Nat} (h1 : Valid B l1) (h2 : Valid B l2) :
    Valid B (l1 ++ l2) := by
  intro d hd
  rcases List.mem_append.mp hd with h | h
  · exact h1 d h
  · exact h2 d h

theorem valid_reverse {l : List Nat} (h : Valid B l) : Valid B l.reverse := by
  intro d hd
  exact h d (List.mem_reverse.mp hd)

theorem val_reverse_cons (d : Nat) (ds : List Nat) :
    val B (ds.reverse ++ [d]) = val B ds.reverse + B ^ ds.length * d := by
  rw [val_append]
  simp [val_cons, val_nil]

theorem cmpMSF_eq_iff : ∀ u v : List Nat, u.length = v.length →
    (cmpMSF u v = Ordering.eq ↔ u = v) := by
  intro u
  induction u with
  | nil =>
    intro v hlen
    cases v with
    | nil => simp [cmpMSF]
    | cons b bs => simp at hlen
  | cons a as ih =>
    intro v hlen
    cases v with
    | nil => simp at hlen
    | cons b bs =>
      simp only [cmpMSF]
      rcases Nat.lt_trichotomy a b with h | h | h
      · rw [if_pos h]
        simp only [List.cons.injEq]
        constructor
        · intro hx; cases hx
        · intro hx; omega
      · rw [if_neg (by omega), if_neg (by omega)]
        rw [ih bs (by simpa using hlen)]
        simp [h]
      · rw [if_neg (by omega), if_pos h]
        simp only [List.cons.injEq]
        constructor
        · intro hx; cases hx
        · intro hx; omega

theorem cmpMSF_lt_iff (hB : 0 < B) : ∀ u v : List Nat, u.length = v.length →
    Valid B u → Valid B v →
    (cmpMSF u v = Ordering.lt ↔ val B u.reverse < val B v.reverse) := by
  intro u
  induction u with
  | nil =>
    intro v hlen _ _
    cases v with
    | nil => simp [cmpMSF]
    | cons b bs => simp at hlen
  | cons a as ih =>
    intro v hlen hvu hvv
    cases v with
    | nil => simp at hlen
    | cons b bs =>
      obtain ⟨ha, has⟩ := valid_of_cons B hvu
      obtain ⟨hb, hbs⟩ := valid_of_cons B hvv
      have hlen2 : as.length = bs.length := by simpa using hlen
      have hua : val B as.reverse < B ^ as.length := by
        have := val_lt B (valid_reverse B has)
        simpa using this
      have hub : val B bs.reverse < B ^ bs.length := by
        have := val_lt B (valid_reverse B hbs)
        simpa using this
      simp only [cmpMSF, List.reverse_cons, val_reverse_cons]
      rcases Nat.lt_trichotomy a b with h | h | h
      · rw [if_pos h]
        simp only [true_iff]
        calc val B as.reverse + B ^ as.length * a
            < B ^ as.length + B ^ as.length * a := by omega
        _ = B ^ as.length * (a + 1) := by ring
        _ ≤ B ^ as.length * b := Nat.mul_le_mul_left _ (by omega)
        _ ≤ val B bs.reverse + B ^ bs.length * b := by rw [hlen2]; omega
      · rw [if_neg (by omega), if_neg (by omega), ih bs hlen2 has hbs, h, hlen2]
        omega
      · rw [if_neg (by omega), if_pos h]
        have hge : val B bs.reverse + B ^ bs.length * b
            < val B as.reverse + B ^ as.length * a := by
          calc val B bs.reverse + B ^ bs.length * b
              < B ^ bs.length + B ^ bs.length * b := by omega
          _ = B ^ bs.length * (b + 1) := by ring
          _ ≤ B ^ bs.length * a := Nat.mul_le_mul_left _ (by omega)
          _ ≤ val B as.reverse + B ^ as.length * a := by rw [hlen2]; omega
        constructor
        · intro hx; exact Ordering.noConfusion hx
        · intro hv; omega

theorem ltN_iff (hB : 0 < B) (hx : Valid B x) (hy : Valid B y)
    (hlen : x.length = y.length) : ltN x y = true ↔ val B x < val B y := by
  have h := cmpMSF_lt_iff B hB x.reverse y.reverse (by simpa using hlen)
    (valid_reverse B hx) (valid_reverse B hy)
  simp only [List.reverse_reverse] at h
  rw [ltN, cmp]
  constructor
  · intro hl
    apply h.mp
    rcases hc : cmpMSF x.reverse y.reverse with _ | _ | _ <;> rw [hc] at hl <;>
      first | rfl | exact absurd hl (by simp)
  · intro hv
    rw [h.mpr hv]

theorem ltN_false_iff (hB : 0 < B) (hx : Valid B x) (hy : Valid B y)
    (hlen : x.length = y.length) : ltN x y = false ↔ val B y ≤ val B x := by
  rw [← not_lt, ← ltN_iff B hB hx hy hlen]
  simp

theorem eqN_iff (hB : 0 < B) (hx : Valid B x) (hy : Valid B y)
    (hlen : x.length = y.length) : x = y ↔ val B x = val B y := by
  constructor
  · rintro rfl; rfl
  · exact val_inj B hx hy hlen

/-! Digit sums and the value function. -/

theorem val_eq_sum (l : List Nat) :
    val B l = ∑ i ∈ Finset.range l.length, digit l i * B ^ i := by
  induction l with
  | nil => simp [val_nil]
  | cons d ds ih =>
    rw [List.length_cons, Finset.sum_range_succ', val_cons, ih, Finset.mul_sum]
    simp only [digit_cons_succ, digit_cons_zero, pow_zero, Nat.mul_one]
    have hcongr : ∀ i ∈ Finset.range ds.length,
        B * (digit ds i * B ^ i) = digit ds i * B ^ (i + 1) := by
      intro i _; ring
    rw [Finset.sum_congr rfl hcongr]
    ring

theorem sum_digits (hB : 0 < B) : ∀ (K x : Nat),
    (∑ i ∈ Finset.range K, x / B ^ i % B * B ^ i) = x % B ^ K := by
  intro K
  induction K with
  | zero => intro x; simp [Nat.mod_one]
  | succ k ih =>
    intro x
    rw [Finset.sum_range_succ']
    simp only [pow_zero, Nat.div_one, Nat.mul_one]
    have hterm : ∀ i, x / B ^ (i + 1) % B * B ^ (i + 1)
        = B * (x / B / B ^ i % B * B ^ i) := by
      intro i
      rw [pow_succ, Nat.mul_comm (B ^ i) B, ← Nat.div_div_eq_div_mul]
      ring
    rw [Finset.sum_congr rfl (fun i _ => hterm i), ← Finset.mul_sum, ih (x / B),
      pow_succ, Nat.mul_comm (B ^ k) B, Nat.mod_mul]
    ring

theorem sum_digit_range (hB : 0 < B) (h : Valid B l) (K : Nat) :
    (∑ i ∈ Finset.range K, digit l i * B ^ i) = val B l % B ^ K := by
  have hcongr : ∀ i ∈ Finset.range K,
      digit l i * B ^ i = val B l / B ^ i % B * B ^ i := by
    intro i _
    rw [digit_eq_div_mod B hB h]
  rw [Finset.sum_congr rfl hcongr, sum_digits B hB]

theorem digit_replicate (k p : Nat) : digit (List.replicate k (0 : Nat)) p = 0 := by
  induction k generalizing p with
  | zero => cases p <;> rfl
  | succ n ih =>
    cases p with
    | zero => rfl
    | succ q => simpa [List.replicate_succ, digit_cons_succ] using ih q

/-! Lemmas about `set_digit` and loops of `set_digit` writes. -/

theorem length_set_digit (l : List Nat) (i v : Nat) :
    (set_digit B l i v).length = l.length := by
  unfold set_digit
  split
  · rw [List.length_set]
  · rfl

theorem valid_set_digit (hB : 0 < B) {l : List Nat} (h : Valid B l) (i v : Nat) :
    Valid B (set_digit B l i v) := by
  unfold set_digit
  split
  · intro d hd
    rcases List.mem_or_eq_of_mem_set hd with hmem | rfl
    · exact h d hmem
    · exact Nat.mod_lt _ hB
  · exact h

theorem digit_set_digit (l : List Nat) (i v p : Nat) :
    digit (set_digit B l i v) p = if i = p ∧ i < l.length then v % B else digit l p := by
  unfold set_digit digit
  split
  · rename_i hi
    rw [List.getD_eq_getElem?_getD, List.getElem?_set]
    by_cases hip : i = p
    · subst hip
      rw [if_pos rfl, if_pos hi, if_pos ⟨rfl, hi⟩]
      rfl
    · rw [if_neg hip, if_neg (by tauto), ← List.getD_eq_getElem?_getD]
  · rename_i hi
    rw [if_neg (by tauto)]

theorem length_foldl_set (g : Nat → Nat) (off : Nat) :
    ∀ (k : Nat) (init : List Nat),
    ((List.range k).foldl (fun s i => set_digit B s (off + i) (g i)) init).length
      = init.length := by
  intro k
  induction k with
  | zero => intro init; rfl
  | succ k ih =>
    intro init
    rw [List.range_succ, List.foldl_append]
    simp only [List.foldl_cons, List.foldl_nil]
    rw [length_set_digit, ih]

theorem valid_foldl_set (hB : 0 < B) (g : Nat → Nat) (off : Nat) :
    ∀ (k : Nat) (init : List Nat), Valid B init →
    Valid B ((List.range k).foldl (fun s i => set_digit B s (off + i) (g i)) init) := by
  intro k
  induction k with
  | zero => intro init h; exact h
  | succ k ih =>
    intro init h
    rw [List.range_succ, List.foldl_append]
    simp only [List.foldl_cons, List.foldl_nil]
    exact valid_set_digit B hB (ih init h) _ _

theorem digit_foldl_set (g : Nat → Nat) (off : Nat) :
    ∀ (k : Nat) (init : List Nat) (p : Nat),
    digit ((List.range k).foldl (fun s i => set_digit B s (off + i) (g i)) init) p
      = if off ≤ p ∧ p < off + k ∧ p < init.length then g (p - off) % B
        else digit init p := by
  intro k
  induction k with
  | zero =>
    intro init p
    rw [if_neg (by omega)]
    rfl
  | succ k ih =>
    intro init p
    rw [List.range_succ, List.foldl_append]
    simp only [List.foldl_cons, List.foldl_nil]
    rw [digit_set_digit, length_foldl_set]
    by_cases hp : off + k = p ∧ off + k < init.length
    · rw [if_pos hp]
      have hcond : off ≤ p ∧ p < off + (k + 1) ∧ p < init.length := by omega
      rw [if_pos hcond]
      have hpk : p - off = k := by omega
      rw [hpk]
    · rw [if_neg hp, ih]
      by_cases hc : off ≤ p ∧ p < off + k ∧ p < init.length
      · rw [if_pos hc, if_pos (by omega)]
      · by_cases hc2 : off ≤ p ∧ p < off + (k + 1) ∧ p < init.length
        · exfalso
          omega
        · rw [if_neg hc, if_neg hc2]

theorem length_foldl_set' (g : Nat → Nat) (k : Nat) (init : List Nat) :
    ((List.range k).foldl (fun s i => set_digit B s i (g i)) init).length
      = init.length := by
  have hfun : (fun (s : List Nat) i => set_digit B s i (g i))
      = fun (s : List Nat) i => set_digit B s (0 + i) (g i) := by
    funext s i
    rw [Nat.zero_add]
  rw [hfun, length_foldl_set]

theorem valid_foldl_set' (hB : 0 < B) (g : Nat → Nat) (k : Nat) (init : List Nat)
    (h : Valid B init) :
    Valid B ((List.range k).foldl (fun s i => set_digit B s i (g i)) init) := by
  have hfun : (fun (s : List Nat) i => set_digit B s i (g i))
      = fun (s : List Nat) i => set_digit B s (0 + i) (g i) := by
    funext s i
    rw [Nat.zero_add]
  rw [hfun]
  exact valid_foldl_set B hB g 0 k init h

theorem digit_foldl_set' (g : Nat → Nat) (k : Nat) (init : List Nat) (p : Nat) :
    digit ((List.range k).foldl (fun s i => set_digit B s i (g i)) init) p
      = if p < k ∧ p < init.length then g p % B else digit init p := by
  have hfun : (fun (s : List Nat) i => set_digit B s i (g i))
      = fun (s : List Nat) i => set_digit B s (0 + i) (g i) := by
    funext s i
    rw [Nat.zero_add]
  rw [hfun, digit_foldl_set]
  by_cases hc : p < k ∧ p < init.length
  · rw [if_pos (by omega), if_pos hc, Nat.sub_zero]
  · rw [if_neg (by omega), if_neg hc]

/-! Correctness of schoolbook multiplication. -/

/-- Partial positional value: `valSeg l i cnt = digit l i + B * digit l (i+1) + ...`
over `cnt` digits starting at place `i`. -/
def valSeg (l : List Nat) : Nat → Nat → Nat
  | _, 0 => 0
  | i, cnt + 1 => digit l i + B * valSeg l (i + 1) cnt

theorem valSeg_eq (hB : 0 < B) (h : Valid B l) :
    ∀ (cnt i : Nat), valSeg B l i cnt = val B l / B ^ i % B ^ cnt := by
  intro cnt
  induction cnt with
  | zero => intro i; simp [valSeg, Nat.mod_one]
  | succ c ih =>
    intro i
    show digit l i + B * valSeg B l (i + 1) c = _
    rw [ih (i + 1), digit_eq_div_mod B hB h]
    rw [show val B l / B ^ (i + 1) = val B l / B ^ i / B from by
      rw [pow_succ, Nat.div_div_eq_div_mul]]
    rw [pow_succ, Nat.mul_comm (B ^ c) B, Nat.mod_mul]

theorem valSeg_msd (hB : 0 < B) (h : Valid B l) :
    valSeg B l 0 (most_significant_digit l) = val B l := by
  rw [valSeg_eq B hB h, pow_zero, Nat.div_one,
    Nat.mod_eq_of_lt (val_lt_pow_msd B hB h)]

/-- Exact value change of an in-range `set_digit` write. -/
theorem val_set_digit_exact (l : List Nat) (p v : Nat) (hp : p < l.length) :
    val B (set_digit B l p v) + digit l p * B ^ p = val B l + v % B * B ^ p := by
  rw [val_eq_sum, val_eq_sum, length_set_digit]
  have hmem : p ∈ Finset.range l.length := Finset.mem_range.mpr hp
  rw [Finset.sum_eq_sum_diff_singleton_add hmem, Finset.sum_eq_sum_diff_singleton_add hmem
    (fun i => digit l i * B ^ i)]
  have hsame : ∀ q ∈ Finset.range l.length \ {p},
      digit (set_digit B l p v) q * B ^ q = digit l q * B ^ q := by
    intro q hq
    rcases Finset.mem_sdiff.mp hq with ⟨_, hq2⟩
    rw [digit_set_digit, if_neg (by simp at hq2; omega)]
  rw [Finset.sum_congr rfl hsame, digit_set_digit, if_pos ⟨rfl, hp⟩]
  ring

/-- Value change of a `set_digit` write, as an equation in `ZMod (B ^ L)`:
out-of-range writes are no-ops and out-of-range place values vanish. -/
theorem zmod_val_set_digit (L : Nat) {l : List Nat} (hlen : l.length = L)
    (p v : Nat) :
    ((val B (set_digit B l p v) : Nat) : ZMod (B ^ L))
      = (val B l : ZMod (B ^ L)) + (v % B : Nat) * (B : ZMod (B ^ L)) ^ p
        - (digit l p : Nat) * (B : ZMod (B ^ L)) ^ p := by
  rcases Nat.lt_or_ge p l.length with hp | hp
  · have h := val_set_digit_exact B l p v hp
    have hz := congrArg (fun t : Nat => (t : ZMod (B ^ L))) h
    push_cast at hz
    linear_combination hz
  · have hset : set_digit B l p v = l := by
      unfold set_digit
      rw [if_neg (by omega)]
    have hd : digit l p = 0 := by
      unfold digit
      rw [List.getD_eq_getElem?_getD, List.getElem?_eq_none (by omega)]
      rfl
    rw [hset, hd]
    have hpow : ((B : ZMod (B ^ L)) ^ p) = 0 := by
      have hdvd : (B : ZMod (B ^ L)) ^ L = 0 := by
        rw [show ((B : ZMod (B ^ L)) ^ L) = ((B ^ L : Nat) : ZMod (B ^ L)) from by push_cast; rfl,
          ZMod.natCast_self]
      have hsplit : p = L + (p - L) := by omega
      rw [hsplit, pow_add, hdvd, zero_mul]
    rw [hpow]
    ring

theorem mulInner_spec (L : Nat) (hB : 0 < B) (x : List Nat) (hx : Valid B x)
    (yj j : Nat) (hyj : yj < B) :
    ∀ (cnt i : Nat) (w : List Nat) (k : Nat), Valid B w → w.length = L → k < B →
      Valid B (mulInner B x yj j cnt i w k).1
      ∧ (mulInner B x yj j cnt i w k).1.length = L
      ∧ (mulInner B x yj j cnt i w k).2 < B
      ∧ (∀ p, i + cnt + j ≤ p →
          digit (mulInner B x yj j cnt i w k).1 p = digit w p)
      ∧ ((val B (mulInner B x yj j cnt i w k).1 : ZMod (B ^ L))
          + ((mulInner B x yj j cnt i w k).2 : Nat) * (B : ZMod (B ^ L)) ^ (i + cnt + j)
          = (val B w : ZMod (B ^ L))
            + (((k : Nat) : ZMod (B ^ L)) + (yj : Nat) * ((valSeg B x i cnt : Nat) : ZMod (B ^ L)))
              * (B : ZMod (B ^ L)) ^ (i + j)) := by
  intro cnt
  induction cnt with
  | zero =>
    intro i w k hw hwl hk
    refine ⟨hw, hwl, hk, fun p _ => rfl, ?_⟩
    show (val B w : ZMod (B ^ L)) + (k : Nat) * (B : ZMod (B ^ L)) ^ (i + 0 + j) = _
    rw [show i + 0 + j = i + j from by omega]
    show _ = (val B w : ZMod (B ^ L))
      + ((k : ZMod (B ^ L)) + (yj : Nat) * ((0 : Nat) : ZMod (B ^ L))) * (B : ZMod (B ^ L)) ^ (i + j)
    push_cast
    ring
  | succ cnt ih =>
    intro i w k hw hwl hk
    have hdw := digit_lt B hB hw (i + j)
    have hdx := digit_lt B hB hx i
    have ht2 : digit x i * yj + digit w (i + j) + k < B * B := by nlinarith
    have hkB : (digit x i * yj + digit w (i + j) + k) / B < B :=
      Nat.div_lt_of_lt_mul ht2
    have hwv : Valid B (set_digit B w (i + j)
        ((digit x i * yj + digit w (i + j) + k) % B)) := valid_set_digit B hB hw _ _
    have hwlen : (set_digit B w (i + j)
        ((digit x i * yj + digit w (i + j) + k) % B)).length = L := by
      rw [length_set_digit, hwl]
    obtain ⟨hv1, hl1, hk1, hpres, heq⟩ :=
      ih (i + 1) (set_digit B w (i + j) ((digit x i * yj + digit w (i + j) + k) % B))
        ((digit x i * yj + digit w (i + j) + k) / B) hwv hwlen hkB
    have hstep : mulInner B x yj j (cnt + 1) i w k
        = mulInner B x yj j cnt (i + 1)
            (set_digit B w (i + j) ((digit x i * yj + digit w (i + j) + k) % B))
            ((digit x i * yj + digit w (i + j) + k) / B) := rfl
    rw [hstep]
    refine ⟨hv1, hl1, hk1, ?_, ?_⟩
    · intro p hp
      rw [hpres p (by omega), digit_set_digit, if_neg (by omega)]
    · have hsd := zmod_val_set_digit B L (l := w) hwl (i + j)
        ((digit x i * yj + digit w (i + j) + k) % B)
      rw [Nat.mod_mod_of_dvd _ (dvd_refl B)] at hsd
      rw [show i + (cnt + 1) + j = i + 1 + cnt + j from by omega, heq, hsd]
      show _ = (val B w : ZMod (B ^ L))
        + ((k : ZMod (B ^ L)) + (yj : Nat)
            * ((digit x i + B * valSeg B x (i + 1) cnt : Nat) : ZMod (B ^ L)))
          * (B : ZMod (B ^ L)) ^ (i + j)
      have hdm : B * ((digit x i * yj + digit w (i + j) + k) / B)
          + (digit x i * yj + digit w (i + j) + k) % B
          = digit x i * yj + digit w (i + j) + k := Nat.div_add_mod _ B
      have hdmz := congrArg (fun t : Nat => (t : ZMod (B ^ L))) hdm
      push_cast at hdmz ⊢
      rw [show i + 1 + j = (i + j) + 1 from by omega, pow_succ]
      linear_combination ((B : ZMod (B ^ L)) ^ (i + j)) * hdmz

theorem mulOuter_spec (L : Nat) (hB : 0 < B) (x y : List Nat) (m : Nat)
    (hx : Valid B x) (hy : Valid B y) :
    ∀ (cnt j : Nat) (w : List Nat), Valid B w → w.length = L →
      (∀ p, j + m ≤ p → digit w p = 0) →
      Valid B (mulOuter B x y m cnt j w)
      ∧ (mulOuter B x y m cnt j w).length = L
      ∧ ((val B (mulOuter B x y m cnt j w) : ZMod (B ^ L))
          = (val B w : ZMod (B ^ L))
            + ((valSeg B y j cnt : Nat) : ZMod (B ^ L)) * (B : ZMod (B ^ L)) ^ j
              * ((valSeg B x 0 m : Nat) : ZMod (B ^ L))) := by
  intro cnt
  induction cnt with
  | zero =>
    intro j w hw hwl _
    refine ⟨hw, hwl, ?_⟩
    show (val B w : ZMod (B ^ L)) = (val B w : ZMod (B ^ L))
      + ((0 : Nat) : ZMod (B ^ L)) * (B : ZMod (B ^ L)) ^ j
        * ((valSeg B x 0 m : Nat) : ZMod (B ^ L))
    push_cast
    ring
  | succ cnt ih =>
    intro j w hw hwl hzero
    obtain ⟨hv1, hl1, hk1, hpres, heq⟩ :=
      mulInner_spec B L hB x hx (digit y j) j (digit_lt B hB hy j) m 0 w 0 hw hwl hB
    have hm0 : digit (mulInner B x (digit y j) j m 0 w 0).1 (j + m) = 0 := by
      rw [hpres (j + m) (by omega)]
      exact hzero (j + m) (by omega)
    have hstep : mulOuter B x y m (cnt + 1) j w
        = mulOuter B x y m cnt (j + 1)
            (set_digit B (mulInner B x (digit y j) j m 0 w 0).1 (j + m)
              (mulInner B x (digit y j) j m 0 w 0).2) := rfl
    rw [hstep]
    have hw2v : Valid B (set_digit B (mulInner B x (digit y j) j m 0 w 0).1 (j + m)
        (mulInner B x (digit y j) j m 0 w 0).2) := valid_set_digit B hB hv1 _ _
    have hw2l : (set_digit B (mulInner B x (digit y j) j m 0 w 0).1 (j + m)
        (mulInner B x (digit y j) j m 0 w 0).2).length = L := by
      rw [length_set_digit, hl1]
    have hw2z : ∀ p, (j + 1) + m ≤ p →
        digit (set_digit B (mulInner B x (digit y j) j m 0 w 0).1 (j + m)
          (mulInner B x (digit y j) j m 0 w 0).2) p = 0 := by
      intro p hp
      rw [digit_set_digit, if_neg (by omega), hpres p (by omega)]
      exact hzero p (by omega)
    obtain ⟨hv2, hl2, heq2⟩ := ih (j + 1) _ hw2v hw2l hw2z
    refine ⟨hv2, hl2, ?_⟩
    rw [heq2]
    have hsd := zmod_val_set_digit B L (l := (mulInner B x (digit y j) j m 0 w 0).1)
      hl1 (j + m) (mulInner B x (digit y j) j m 0 w 0).2
    rw [Nat.mod_eq_of_lt hk1, hm0] at hsd
    rw [hsd]
    show _ = (val B w : ZMod (B ^ L))
      + ((digit y j + B * valSeg B y (j + 1) cnt : Nat) : ZMod (B ^ L))
        * (B : ZMod (B ^ L)) ^ j * ((valSeg B x 0 m : Nat) : ZMod (B ^ L))
    have heqz := heq
    push_cast at heqz ⊢
    rw [show j + 1 = j + 1 from rfl]
    have hpows : ((B : ZMod (B ^ L)) ^ (j + 1)) = (B : ZMod (B ^ L)) ^ j * B := pow_succ _ _
    have hpowm : ((B : ZMod (B ^ L)) ^ (0 + m + j)) = (B : ZMod (B ^ L)) ^ (j + m) := by
      rw [show 0 + m + j = j + m from by omega]
    rw [hpows]
    rw [hpowm, show (0 : Nat) + j = j from by omega] at heqz
    linear_combination heqz

theorem length_mulInner (x : List Nat) (yj j : Nat) :
    ∀ (cnt i : Nat) (w : List Nat) (k : Nat),
    (mulInner B x yj j cnt i w k).1.length = w.length := by
  intro cnt
  induction cnt with
  | zero => intro i w k; rfl
  | succ cnt ih =>
    intro i w k
    show (mulInner B x yj j cnt (i + 1) _ _).1.length = _
    rw [ih, length_set_digit]

theorem valid_mulInner (hB : 0 < B) (x : List Nat) (yj j : Nat) :
    ∀ (cnt i : Nat) (w : List Nat) (k : Nat), Valid B w →
    Valid B (mulInner B x yj j cnt i w k).1 := by
  intro cnt
  induction cnt with
  | zero => intro i w k hw; exact hw
  | succ cnt ih =>
    intro i w k hw
    exact ih (i + 1) _ _ (valid_set_digit B hB hw _ _)

theorem length_mulOuter (x y : List Nat) (m : Nat) :
    ∀ (cnt j : Nat) (w : List Nat), (mulOuter B x y m cnt j w).length = w.length := by
  intro cnt
  induction cnt with
  | zero => intro j w; rfl
  | succ cnt ih =>
    intro j w
    show (mulOuter B x y m cnt (j + 1) _).length = _
    rw [ih, length_set_digit, length_mulInner]

theorem valid_mulOuter (hB : 0 < B) (x y : List Nat) (m : Nat) :
    ∀ (cnt j : Nat) (w : List Nat), Valid B w →
    Valid B (mulOuter B x y m cnt j w) := by
  intro cnt
  induction cnt with
  | zero => intro j w hw; exact hw
  | succ cnt ih =>
    intro j w hw
    exact ih (j + 1) _ (valid_set_digit B hB (valid_mulInner B hB x _ _ _ _ _ _ hw) _ _)

theorem length_mul (x y : List Nat) : (mul B x y).length = x.length := by
  rw [mul, length_mulOuter, List.length_replicate]

theorem valid_mul (hB : 0 < B) (x y : List Nat) : Valid B (mul B x y) :=
  valid_mulOuter B hB x y _ _ _ _ (valid_replicate B hB _)

theorem val_mul (hB : 0 < B) (hx : Valid B x) (hy : Valid B y) :
    val B (mul B x y) = val B x * val B y % B ^ x.length := by
  obtain ⟨_, _, heq⟩ := mulOuter_spec B x.length hB x y (most_significant_digit x) hx hy
    (most_significant_digit y) 0 (List.replicate x.length 0)
    (valid_replicate B hB _) (by simp)
    (fun p _ => digit_replicate _ p)
  rw [val_replicate_zero, valSeg_msd B hB hx, valSeg_msd B hB hy] at heq
  have heq2 : ((val B (mul B x y) : Nat) : ZMod (B ^ x.length))
      = ((val B x * val B y : Nat) : ZMod (B ^ x.length)) := by
    rw [mul, heq]
    push_cast
    ring
  have hmod : val B (mul B x y) ≡ val B x * val B y [MOD B ^ x.length] :=
    (ZMod.natCast_eq_natCast_iff _ _ _).mp heq2
  have hlt : val B (mul B x y) < B ^ x.length := by
    have h := val_lt B (valid_mul B hB x y)
    rwa [length_mul] at h
  exact ((Nat.mod_eq_of_lt hlt).symm.trans hmod)

theorem val_mul_exact (hB : 0 < B) (hx : Valid B x) (hy : Valid B y)
    (h : val B x * val B y < B ^ x.length) :
    val B (mul B x y) = val B x * val B y := by
  rw [val_mul B hB hx hy, Nat.mod_eq_of_lt h]

theorem val_ofNat_exact (hB : 0 < B) {len n : Nat} (h : n < B ^ len) :
    val B (ofNat B len n) = n := by
  rw [val_ofNat B hB, Nat.mod_eq_of_lt h]

/-! Correctness of the truncating conversion to a w-bit native integer
for values that fit: the loop adds each digit with an exactly tracked
power while that power has not wrapped, and a value below `2 ^ w` has no
nonzero digit beyond the point where the power wraps. -/

theorem eq_zero_of_val_eq_zero (hB : 0 < B) :
    ∀ {l : List Nat}, val B l = 0 → ∀ d ∈ l, d = 0 := by
  intro l
  induction l with
  | nil => intro _ d hd; cases hd
  | cons a as ih =>
    intro hv d hd
    rw [val_cons] at hv
    have ha : a = 0 := by omega
    have has : val B as = 0 := by
      rcases Nat.eq_zero_of_add_eq_zero_left hv with h
      exact Nat.eq_zero_of_mul_eq_zero h |>.resolve_left (by omega)
    rcases List.mem_cons.mp hd with rfl | hmem
    · exact ha
    · exact ih has d hmem

theorem convGo_zero (w : Nat) :
    ∀ (l : List Nat) (v p : Nat), (∀ d ∈ l, d = 0) → v < 2 ^ w →
    convGo B w l v p = v := by
  intro l
  induction l with
  | nil => intro v p _ _; rfl
  | cons d ds ih =>
    intro v p hz hv
    have hd : d = 0 := hz d (List.mem_cons_self d ds)
    show (if p * B % 2 ^ w < p then (v + p * d) % 2 ^ w
      else convGo B w ds ((v + p * d) % 2 ^ w) (p * B % 2 ^ w)) = v
    rw [hd, Nat.mul_zero, Nat.add_zero, Nat.mod_eq_of_lt hv]
    split
    · rfl
    · exact ih v _ (fun e he => hz e (List.mem_cons_of_mem d he)) hv

theorem convGo_exact (hB : 0 < B) (w : Nat) :
    ∀ (l : List Nat) (v k : Nat), Valid B l →
    v + val B l * B ^ k < 2 ^ w → B ^ k < 2 ^ w →
    convGo B w l v (B ^ k) = v + val B l * B ^ k := by
  intro l
  induction l with
  | nil => intro v k _ _ _; simp [convGo, val_nil]
  | cons d ds ih =>
    intro v k hval hfit hp
    obtain ⟨hd, hds⟩ := valid_of_cons B hval
    have hdval : v + B ^ k * d + val B ds * B ^ (k + 1) = v + val B (d :: ds) * B ^ k := by
      rw [val_cons, pow_succ]
      ring
    have hv2 : v + B ^ k * d < 2 ^ w := by
      rw [val_cons] at hfit
      nlinarith [Nat.zero_le (B * val B ds * B ^ k)]
    show (if B ^ k * B % 2 ^ w < B ^ k then (v + B ^ k * d) % 2 ^ w
      else convGo B w ds ((v + B ^ k * d) % 2 ^ w) (B ^ k * B % 2 ^ w))
      = v + val B (d :: ds) * B ^ k
    rw [Nat.mod_eq_of_lt hv2]
    rcases Nat.lt_or_ge (B ^ k * B) (2 ^ w) with hbk | hbk
    · have hpow : B ^ k * B % 2 ^ w = B ^ k * B := Nat.mod_eq_of_lt hbk
      have hnolt : ¬ (B ^ k * B % 2 ^ w < B ^ k) := by
        rw [hpow]
        have : B ^ k ≤ B ^ k * B := Nat.le_mul_of_pos_right _ hB
        omega
      rw [if_neg hnolt, hpow, ← pow_succ]
      rw [ih (v + B ^ k * d) (k + 1) hds (by omega) hbk]
      omega
    · have hds0 : val B ds = 0 := by
        by_contra hne
        have h1 : 1 ≤ val B ds := by omega
        have h2 : B ^ (k + 1) ≤ val B ds * B ^ (k + 1) :=
          Nat.le_mul_of_pos_left _ (by omega)
        have hbk2 : 2 ^ w ≤ B ^ (k + 1) := by rw [pow_succ]; exact hbk
        omega
      have hval0 : val B (d :: ds) = d := by rw [val_cons, hds0]; omega
      have hzero := eq_zero_of_val_eq_zero B hB hds0
      split
      · rw [hval0]
        ring
      · rw [convGo_zero B w ds _ _ hzero (by omega), hval0]
        ring

theorem conv_exact (hB : 0 < B) (hw : 1 ≤ w) (h : Valid B l) (hv : val B l < 2 ^ w) :
    conv B w l = val B l := by
  have h1 : (1 : Nat) < 2 ^ w := by
    calc (1 : Nat) < 2 := by omega
    _ = 2 ^ 1 := (pow_one 2).symm
    _ ≤ 2 ^ w := Nat.pow_le_pow_right (by omega) hw
  have h0 := convGo_exact B hB w l 0 0 h (by simpa using hv) (by simpa using h1)
  simpa [conv] using h0

/-! Correctness of the division algorithm.  Throughout, `D = val den`,
`S = val num / B ^ j` is the value of the current dividend window, and the
true quotient digit at position `j` is `S / D`. -/

theorem length_divSig (L n j : Nat) (num : List Nat) :
    (divSig B L n j num).length = L + 1 := by
  rw [divSig, length_foldl_set' , List.length_replicate]

theorem valid_divSig (hB : 0 < B) (L n j : Nat) (num : List Nat) :
    Valid B (divSig B L n j num) := by
  rw [divSig]
  exact valid_foldl_set' B hB _ _ _ (valid_replicate B hB _)

theorem val_divSig (hB : 0 < B) {num : List Nat} (hnum : Valid B num)
    (hn : n ≤ L) :
    val B (divSig B L n j num) = val B num / B ^ j % B ^ (n + 1) := by
  rw [val_eq_sum, length_divSig]
  have hchar : ∀ p, digit (divSig B L n j num) p
      = if p < n + 1 ∧ p < L + 1 then digit num (j + p) else 0 := by
    intro p
    rw [divSig, digit_foldl_set' B _ _ _ p, List.length_replicate]
    by_cases hc : p < n + 1 ∧ p < L + 1
    · rw [if_pos (by omega), if_pos hc, Nat.mod_eq_of_lt (digit_lt B hB hnum _)]
    · rw [if_neg (by omega), if_neg hc, digit_replicate]
  have hsum : ∀ p ∈ Finset.range (L + 1),
      digit (divSig B L n j num) p * B ^ p
        = (if p < n + 1 then digit num (j + p) * B ^ p else 0) := by
    intro p hp
    rcases Finset.mem_range.mp hp with hpL
    rw [hchar p]
    by_cases hc : p < n + 1
    · rw [if_pos ⟨hc, by omega⟩, if_pos hc]
    · rw [if_neg (by simp [hc]), if_neg hc, Nat.zero_mul]
  rw [Finset.sum_congr rfl hsum]
  rw [← Finset.sum_subset (Finset.range_subset.mpr (by omega : n + 1 ≤ L + 1))
    (fun p _ hp => by rw [if_neg (by simpa using hp)])]
  have hsum2 : ∀ p ∈ Finset.range (n + 1),
      (if p < n + 1 then digit num (j + p) * B ^ p else 0)
        = val B num / B ^ j / B ^ p % B * B ^ p := by
    intro p hp
    rcases Finset.mem_range.mp hp with hpn
    rw [if_pos hpn, digit_eq_div_mod B hB hnum, Nat.div_div_eq_div_mul, ← pow_add]
  rw [Finset.sum_congr rfl hsum2, sum_digits B hB]

/-- Value of the write-back of `diff` into the dividend window. -/
theorem val_writeback (hB : 0 < B) {num diff : List Nat} (hnum : Valid B num)
    (hnlen : num.length = L + 1) (hdiff : Valid B diff)
    (hj : j ≤ L) (hjn : j + n ≤ L + 1) (hdval : val B diff < B ^ n)
    (hhi : val B num < B ^ (j + n + 1)) :
    val B ((List.range (n + 1)).foldl
        (fun nu i => set_digit B nu (j + i) (digit diff i)) num)
      = val B num % B ^ j + B ^ j * val B diff := by
  have hlen2 : ((List.range (n + 1)).foldl
      (fun nu i => set_digit B nu (j + i) (digit diff i)) num).length = L + 1 := by
    rw [length_foldl_set, hnlen]
  have hchar : ∀ p, digit ((List.range (n + 1)).foldl
      (fun nu i => set_digit B nu (j + i) (digit diff i)) num) p
      = if j ≤ p ∧ p < j + (n + 1) ∧ p < L + 1 then digit diff (p - j) else digit num p := by
    intro p
    rw [digit_foldl_set B _ _ _ _ p, hnlen]
    by_cases hc : j ≤ p ∧ p < j + (n + 1) ∧ p < L + 1
    · rw [if_pos hc, if_pos hc, Nat.mod_eq_of_lt (digit_lt B hB hdiff _)]
    · rw [if_neg hc, if_neg hc]
  rw [val_eq_sum, hlen2]
  rw [Finset.range_eq_Ico,
    ← Finset.sum_Ico_consecutive _ (Nat.zero_le j) (by omega : j ≤ L + 1)]
  have hfirst : (∑ p ∈ Finset.Ico 0 j,
      digit ((List.range (n + 1)).foldl
        (fun nu i => set_digit B nu (j + i) (digit diff i)) num) p * B ^ p)
      = val B num % B ^ j := by
    rw [← Finset.range_eq_Ico]
    have hc : ∀ p ∈ Finset.range j,
        digit ((List.range (n + 1)).foldl
          (fun nu i => set_digit B nu (j + i) (digit diff i)) num) p * B ^ p
        = digit num p * B ^ p := by
      intro p hp
      rcases Finset.mem_range.mp hp with hpj
      rw [hchar p, if_neg (by omega)]
    rw [Finset.sum_congr rfl hc, sum_digit_range B hB hnum]
  rw [hfirst]
  have hK : j + min (n + 1) (L + 1 - j) ≤ L + 1 := by omega
  rw [← Finset.sum_Ico_consecutive _
    (by omega : j ≤ j + min (n + 1) (L + 1 - j)) hK]
  have hsecond : (∑ p ∈ Finset.Ico j (j + min (n + 1) (L + 1 - j)),
      digit ((List.range (n + 1)).foldl
        (fun nu i => set_digit B nu (j + i) (digit diff i)) num) p * B ^ p)
      = B ^ j * val B diff := by
    rw [Finset.sum_Ico_eq_sum_range]
    have hc : ∀ t ∈ Finset.range (j + min (n + 1) (L + 1 - j) - j),
        digit ((List.range (n + 1)).foldl
          (fun nu i => set_digit B nu (j + i) (digit diff i)) num) (j + t) * B ^ (j + t)
        = B ^ j * (digit diff t * B ^ t) := by
      intro t ht
      rcases Finset.mem_range.mp ht with htK
      rw [hchar (j + t), if_pos (by omega), pow_add]
      rw [show j + t - j = t from by omega]
      ring
    rw [Finset.sum_congr rfl hc, ← Finset.mul_sum,
      show j + min (n + 1) (L + 1 - j) - j = min (n + 1) (L + 1 - j) from by omega]
    rw [sum_digit_range B hB hdiff]
    have hfitK : val B diff < B ^ min (n + 1) (L + 1 - j) := by
      have h2 : B ^ n ≤ B ^ min (n + 1) (L + 1 - j) :=
        Nat.pow_le_pow_right hB (by omega)
      omega
    rw [Nat.mod_eq_of_lt hfitK]
  rw [hsecond]
  have hthird : (∑ p ∈ Finset.Ico (j + min (n + 1) (L + 1 - j)) (L + 1),
      digit ((List.range (n + 1)).foldl
        (fun nu i => set_digit B nu (j + i) (digit diff i)) num) p * B ^ p) = 0 := by
    apply Finset.sum_eq_zero
    intro p hp
    rcases Finset.mem_Ico.mp hp with ⟨hp1, hp2⟩
    have hKcase : min (n + 1) (L + 1 - j) = n + 1 := by omega
    rw [hKcase] at hp1
    rw [hchar p, if_neg (by omega)]
    rw [digit_eq_zero_of_val_lt B hB hnum
      (Nat.lt_of_lt_of_le hhi (Nat.pow_le_pow_right hB (by omega))), Nat.zero_mul]
  rw [hthird]
  omega

/-- The first correction loop never drops the estimate below the true
quotient digit `q`, and always exits with an estimate below the base:
each decrement happens only under a condition that forces the current
estimate to be strictly above `q`, and an early exit via `rh >= base`
forces the estimate below `B` through the invariant
`qh * d1 + rh = T < (d1 + 1) * B`. -/
theorem phase1_spec {d1 d2 u2 T q : Nat} (hB : 0 < B) (hd1 : 1 ≤ d1)
    (hT : T < (d1 + 1) * B)
    (hdec : ∀ qh rh, qh * d1 + rh = T → (B ≤ qh ∨ B * rh + u2 < qh * d2) → q < qh) :
    ∀ qh rh, q ≤ qh → qh * d1 + rh = T →
      q ≤ (phase1 B d1 d2 u2 qh rh).1 ∧ (phase1 B d1 d2 u2 qh rh).1 < B := by
  intro qh
  induction qh with
  | zero =>
    intro rh hq _
    exact ⟨hq, hB⟩
  | succ qh ih =>
    intro rh hq hinv
    have hunfold : phase1 B d1 d2 u2 (qh + 1) rh
        = if B ≤ qh + 1 ∨ B * rh + u2 < (qh + 1) * d2 then
            (if B ≤ rh + d1 then (qh, rh + d1) else phase1 B d1 d2 u2 qh (rh + d1))
          else (qh + 1, rh) := rfl
    rw [hunfold]
    by_cases hcond : B ≤ qh + 1 ∨ B * rh + u2 < (qh + 1) * d2
    · rw [if_pos hcond]
      have hqlt : q < qh + 1 := hdec (qh + 1) rh hinv hcond
      have hinv2 : qh * d1 + (rh + d1) = T := by
        rw [← hinv]
        ring
      by_cases hbreak : B ≤ rh + d1
      · rw [if_pos hbreak]
        refine ⟨by omega, ?_⟩
        show qh < B
        have h1 : qh * d1 + B ≤ T := by omega
        have h2 : qh * d1 < d1 * B := by
          have h3 : (d1 + 1) * B = d1 * B + B := by ring
          omega
        have h4 : qh * d1 < B * d1 := by
          rw [Nat.mul_comm B d1]
          exact h2
        exact Nat.lt_of_mul_lt_mul_right h4
      · rw [if_neg hbreak]
        exact ih (rh + d1) (by omega) hinv2
    · rw [if_neg hcond]
      refine ⟨hq, ?_⟩
      show qh + 1 < B
      omega

/-- The second correction loop computes the exact quotient digit: it
decrements while the trial product exceeds the window, and each decrement
is justified because the window value then lies strictly below the
estimate times the divisor. -/
theorem phase2_spec (hB2 : 2 ≤ B) {L n : Nat} {den sig : List Nat}
    (hden : Valid B den) (hdlen : den.length = L + 1)
    (hsig : Valid B sig) (hslen : sig.length = L + 1)
    (hD0 : 0 < val B den) (hDn : val B den < B ^ n) (hnL : n ≤ L) :
    ∀ qh, val B sig / val B den ≤ qh → qh < B →
      phase2 B L den sig qh = val B sig / val B den := by
  have hB : 0 < B := by omega
  intro qh
  induction qh with
  | zero =>
    intro hq _
    show 0 = val B sig / val B den
    exact (Nat.le_zero.mp hq).symm
  | succ qh ih =>
    intro hq hqB
    have hofl : (ofNat B (L + 1) (qh + 1)).length = L + 1 := length_ofNat B _ _
    have hBpow : B ≤ B ^ (L + 1) := by
      calc B = B ^ 1 := (pow_one B).symm
      _ ≤ B ^ (L + 1) := Nat.pow_le_pow_right hB (by omega)
    have hofv : val B (ofNat B (L + 1) (qh + 1)) = qh + 1 :=
      val_ofNat_exact B hB (by omega)
    have hprod : val B (ofNat B (L + 1) (qh + 1)) * val B den
        < B ^ (ofNat B (L + 1) (qh + 1)).length := by
      rw [hofv, hofl]
      have h1 : (qh + 1) * val B den ≤ B * val B den := Nat.mul_le_mul_right _ (by omega)
      have h2 : B * val B den < B * B ^ n := mul_lt_mul_of_pos_left hDn hB
      calc (qh + 1) * val B den < B * B ^ n := by omega
      _ = B ^ (n + 1) := by rw [pow_succ, Nat.mul_comm]
      _ ≤ B ^ (L + 1) := Nat.pow_le_pow_right hB (by omega)
    have htrialv : val B (mul B (ofNat B (L + 1) (qh + 1)) den) = (qh + 1) * val B den := by
      rw [val_mul_exact B hB (valid_ofNat B hB _ _) hden hprod, hofv]
    have htlen : (mul B (ofNat B (L + 1) (qh + 1)) den).length = L + 1 := by
      rw [length_mul, hofl]
    show (if ltN sig (mul B (ofNat B (L + 1) (qh + 1)) den) then phase2 B L den sig qh
      else qh + 1) = val B sig / val B den
    by_cases hlt : val B sig < (qh + 1) * val B den
    · have hltb : ltN sig (mul B (ofNat B (L + 1) (qh + 1)) den) = true := by
        rw [ltN_iff B hB hsig (valid_mul B hB _ _) (by rw [htlen, hslen]), htrialv]
        exact hlt
      rw [if_pos hltb]
      have hstep : val B sig / val B den ≤ qh := by
        have h2 : val B sig / val B den < qh + 1 := by
          rw [Nat.div_lt_iff_lt_mul hD0]
          exact hlt
        omega
      exact ih hstep (by omega)
    · have hltb : ltN sig (mul B (ofNat B (L + 1) (qh + 1)) den) = false := by
        rw [← Bool.not_eq_true]
        rw [ltN_iff B hB hsig (valid_mul B hB _ _) (by rw [htlen, hslen]), htrialv]
        omega
      rw [if_neg (by rw [hltb]; exact Bool.false_ne_true)]
      have hge : (qh + 1) * val B den ≤ val B sig := by omega
      have h1 : qh + 1 ≤ val B sig / val B den := (Nat.le_div_iff_mul_le hD0).mpr hge
      omega

theorem lt_div_succ_mul (a b : Nat) (hb : 0 < b) : a < (a / b + 1) * b := by
  have h1 := Nat.div_add_mod a b
  have h2 := Nat.mod_lt a hb
  have h3 : (a / b + 1) * b = b * (a / b) + b := by ring
  omega

/-- The corrected quotient digit equals the true quotient digit of the
current window: the initial estimate is at least the true digit, the first
correction loop never over-corrects and exits below the base, and the
second correction loop then lands exactly. -/
theorem divQhat_spec (hB2 : 2 ≤ B) {L n j : Nat} {den num : List Nat}
    (hden : Valid B den) (hdlen : den.length = L + 1)
    (hnum : Valid B num) (hnlen : num.length = L + 1)
    (hn1 : 1 ≤ n) (hnL : n ≤ L)
    (hmsd : most_significant_digit den = n)
    (hbound : val B num < val B den * B ^ (j + 1)) :
    divQhat B L den n j num = val B num / B ^ j / val B den := by
  have hB : 0 < B := by omega
  have hP1 : (0 : Nat) < B ^ (n - 1) := Nat.pos_pow_of_pos _ hB
  have hD1 : B ^ (n - 1) ≤ val B den := by
    have := pow_msd_le_val B (l := den) (by omega)
    rwa [hmsd] at this
  have hDn : val B den < B ^ n := by
    have := val_lt_pow_msd B hB hden
    rwa [hmsd] at this
  have hD0 : 0 < val B den := Nat.lt_of_lt_of_le hP1 hD1
  have hpown : B ^ n = B ^ (n - 1) * B := by
    rw [← pow_succ]
    congr 1
    omega
  have hS : val B num / B ^ j < B * val B den := by
    rw [Nat.div_lt_iff_lt_mul (Nat.pos_pow_of_pos j hB)]
    calc val B num < val B den * B ^ (j + 1) := hbound
    _ = B * val B den * B ^ j := by ring
  have hSB : val B num / B ^ j < B ^ (n + 1) := by
    have h1 : B * val B den < B * B ^ n := mul_lt_mul_of_pos_left hDn hB
    have h2 : B * B ^ n = B ^ (n + 1) := by rw [pow_succ, Nat.mul_comm]
    omega
  have hqB : val B num / B ^ j / val B den < B := by
    rw [Nat.div_lt_iff_lt_mul hD0]
    calc val B num / B ^ j < B * val B den := hS
    _ = B * val B den := rfl
  have hqD : val B num / B ^ j / val B den * val B den ≤ val B num / B ^ j :=
    Nat.div_mul_le_self _ _
  -- the digits read by the algorithm, in terms of S and D
  have hd1 : digit den (n - 1) = val B den / B ^ (n - 1) := by
    rw [digit_eq_div_mod B hB hden, Nat.mod_eq_of_lt]
    rw [Nat.div_lt_iff_lt_mul hP1, Nat.mul_comm B (B ^ (n - 1)), ← hpown]
    exact hDn
  have hd1ge : 1 ≤ digit den (n - 1) := by
    rw [hd1, Nat.one_le_div_iff hP1]
    exact hD1
  have hd1P : digit den (n - 1) * B ^ (n - 1) ≤ val B den := by
    rw [hd1]
    exact Nat.div_mul_le_self _ _
  have hd1Dlt : val B den < (digit den (n - 1) + 1) * B ^ (n - 1) := by
    rw [hd1]
    exact lt_div_succ_mul _ _ hP1
  have hu0 : digit num (j + n) = val B num / B ^ j / B ^ n := by
    rw [digit_eq_div_mod B hB hnum, Nat.div_div_eq_div_mul, ← pow_add]
    rw [Nat.mod_eq_of_lt]
    rw [Nat.div_lt_iff_lt_mul (Nat.pos_pow_of_pos _ hB)]
    have h2 : val B num / B ^ j < B ^ (n + 1) := hSB
    have h3 : val B num < B ^ (n + 1) * B ^ j := by
      rw [← Nat.div_lt_iff_lt_mul (Nat.pos_pow_of_pos j hB)]
      exact h2
    calc val B num < B ^ (n + 1) * B ^ j := h3
    _ = B * B ^ (j + n) := by ring
  have hu1 : digit num (j + n - 1) = val B num / B ^ j / B ^ (n - 1) % B := by
    rw [digit_eq_div_mod B hB hnum, Nat.div_div_eq_div_mul, ← pow_add,
      show j + (n - 1) = j + n - 1 from by omega]
  have hT : digit num (j + n) * B + digit num (j + n - 1)
      = val B num / B ^ j / B ^ (n - 1) := by
    rw [hu0, hu1]
    have hx : val B num / B ^ j / B ^ (n - 1) / B = val B num / B ^ j / B ^ n := by
      rw [Nat.div_div_eq_div_mul, ← hpown]
    calc val B num / B ^ j / B ^ n * B + val B num / B ^ j / B ^ (n - 1) % B
        = B * (val B num / B ^ j / B ^ (n - 1) / B)
          + val B num / B ^ j / B ^ (n - 1) % B := by rw [hx, Nat.mul_comm]
    _ = val B num / B ^ j / B ^ (n - 1) := Nat.div_add_mod _ B
  have hTbound : val B num / B ^ j / B ^ (n - 1) < (digit den (n - 1) + 1) * B := by
    rw [Nat.div_lt_iff_lt_mul hP1]
    have h1 : B * val B den < B * ((digit den (n - 1) + 1) * B ^ (n - 1)) :=
      mul_lt_mul_of_pos_left hd1Dlt hB
    calc val B num / B ^ j < B * val B den := hS
    _ ≤ (digit den (n - 1) + 1) * B * B ^ (n - 1) := by
        have h2 : B * ((digit den (n - 1) + 1) * B ^ (n - 1))
            = (digit den (n - 1) + 1) * B * B ^ (n - 1) := by ring
        omega
  have hqest : val B num / B ^ j / val B den
      ≤ (digit num (j + n) * B + digit num (j + n - 1)) / digit den (n - 1) := by
    rw [hT, Nat.le_div_iff_mul_le (by omega : 0 < digit den (n - 1))]
    have h1 : val B num / B ^ j / val B den * (digit den (n - 1) * B ^ (n - 1))
        ≤ val B num / B ^ j / val B den * val B den :=
      Nat.mul_le_mul_left _ hd1P
    have h2 : val B num / B ^ j
        < (val B num / B ^ j / B ^ (n - 1) + 1) * B ^ (n - 1) :=
      lt_div_succ_mul _ _ hP1
    have h3 : val B num / B ^ j / val B den * digit den (n - 1) * B ^ (n - 1)
        < (val B num / B ^ j / B ^ (n - 1) + 1) * B ^ (n - 1) := by
      have h4 : val B num / B ^ j / val B den * digit den (n - 1) * B ^ (n - 1)
          = val B num / B ^ j / val B den * (digit den (n - 1) * B ^ (n - 1)) := by ring
      omega
    have h5 := Nat.lt_of_mul_lt_mul_right h3
    omega
  have hdec : ∀ qh rh, qh * digit den (n - 1) + rh
        = digit num (j + n) * B + digit num (j + n - 1) →
      (B ≤ qh ∨ B * rh + (if 2 ≤ j + n then digit num (j + n - 2) else 0)
          < qh * (if 2 ≤ n then digit den (n - 2) else 0)) →
      val B num / B ^ j / val B den < qh := by
    intro qh rh hinv hcase
    rcases hcase with hBq | hlt2
    · omega
    · by_cases hn2 : 2 ≤ n
      · rw [if_pos hn2] at hlt2
        rw [if_pos (by omega)] at hlt2
        -- notation: P2 = B^(n-2), P1 = B^(n-1), S = val num / B^j, D = val den
        have hP2 : (0 : Nat) < B ^ (n - 2) := Nat.pos_pow_of_pos _ hB
        have hpow12 : B ^ (n - 1) = B ^ (n - 2) * B := by
          rw [← pow_succ]
          congr 1
          omega
        have hd2 : digit den (n - 2) = val B den / B ^ (n - 2) % B :=
          digit_eq_div_mod B hB hden _
        have hu2 : digit num (j + n - 2) = val B num / B ^ j / B ^ (n - 2) % B := by
          rw [digit_eq_div_mod B hB hnum, Nat.div_div_eq_div_mul, ← pow_add,
            show j + (n - 2) = j + n - 2 from by omega]
        -- D >= d1 * P1 + d2 * P2
        have hdd : digit den (n - 1) * B ^ (n - 1) + digit den (n - 2) * B ^ (n - 2)
            ≤ val B den := by
          have hm1 : val B den / B ^ (n - 1) * B ^ (n - 1) + val B den % B ^ (n - 1)
              = val B den := Nat.div_add_mod' _ _
          have hm2 : val B den % (B ^ (n - 2) * B)
              = val B den % B ^ (n - 2) + B ^ (n - 2) * (val B den / B ^ (n - 2) % B) :=
            Nat.mod_mul
          rw [← hpow12] at hm2
          have e2 : val B den / B ^ (n - 2) % B * B ^ (n - 2) ≤ val B den % B ^ (n - 1) := by
            rw [hm2, Nat.mul_comm]
            exact Nat.le_add_left _ _
          rw [hd1, hd2]
          omega
        -- S decomposition through its digits at n-1 and n-2
        have hm3 := Nat.div_add_mod (val B num / B ^ j) (B ^ (n - 1))
        have hm4 : val B num / B ^ j % (B ^ (n - 2) * B)
            = val B num / B ^ j % B ^ (n - 2)
              + B ^ (n - 2) * (val B num / B ^ j / B ^ (n - 2) % B) := Nat.mod_mul
        rw [← hpow12] at hm4
        have hm5 : val B num / B ^ j % B ^ (n - 2) < B ^ (n - 2) :=
          Nat.mod_lt _ hP2
        -- chain: qh * D > S
        have hchain : val B num / B ^ j < qh * val B den := by
          have c1 : qh * (digit den (n - 1) * B ^ (n - 1) + digit den (n - 2) * B ^ (n - 2))
              ≤ qh * val B den := Nat.mul_le_mul_left qh hdd
          have c2 : (B * rh + digit num (j + n - 2) + 1) * B ^ (n - 2)
              ≤ qh * digit den (n - 2) * B ^ (n - 2) :=
            Nat.mul_le_mul_right _ hlt2
          have c3 : qh * (digit den (n - 1) * B ^ (n - 1) + digit den (n - 2) * B ^ (n - 2))
              = qh * digit den (n - 1) * B ^ (n - 1) + qh * digit den (n - 2) * B ^ (n - 2) := by
            ring
          have c4 : (B * rh + digit num (j + n - 2) + 1) * B ^ (n - 2)
              = rh * B ^ (n - 1) + (digit num (j + n - 2) + 1) * B ^ (n - 2) := by
            rw [hpow12]
            ring
          have c5 : qh * digit den (n - 1) * B ^ (n - 1) + rh * B ^ (n - 1)
              = (digit num (j + n) * B + digit num (j + n - 1)) * B ^ (n - 1) := by
            rw [← hinv]
            ring
          -- S = T * P1 + S % P1 and S % P1 = S % P2 + P2 * u2
          have c6 : val B num / B ^ j
              < (digit num (j + n) * B + digit num (j + n - 1)) * B ^ (n - 1)
                + (digit num (j + n - 2) + 1) * B ^ (n - 2) := by
            rw [hT, hu2]
            have c7 : val B num / B ^ j / B ^ (n - 1) * B ^ (n - 1)
                = B ^ (n - 1) * (val B num / B ^ j / B ^ (n - 1)) := by ring
            have c8 : (val B num / B ^ j / B ^ (n - 2) % B + 1) * B ^ (n - 2)
                = B ^ (n - 2) * (val B num / B ^ j / B ^ (n - 2) % B) + B ^ (n - 2) := by
              ring
            omega
          omega
        rw [Nat.div_lt_iff_lt_mul hD0]
        calc val B num / B ^ j < qh * val B den := hchain
        _ = qh * val B den := rfl
      · rw [if_neg hn2] at hlt2
        omega
  -- assemble: phase 1 then phase 2
  rw [← hT] at hTbound
  have hph1 := phase1_spec B hB hd1ge hTbound hdec
    ((digit num (j + n) * B + digit num (j + n - 1)) / digit den (n - 1))
    ((digit num (j + n) * B + digit num (j + n - 1)) % digit den (n - 1))
    hqest (Nat.div_add_mod' _ _)
  have hsigv : val B (divSig B L n j num) = val B num / B ^ j := by
    rw [val_divSig B hB hnum hnL, Nat.mod_eq_of_lt hSB]
  have hfinal := phase2_spec B hB2 hden hdlen (valid_divSig B hB L n j num)
    (length_divSig B L n j num) hD0 hDn hnL
    (phase1 B (digit den (n - 1))
      (if 2 ≤ n then digit den (n - 2) else 0)
      (if 2 ≤ j + n then digit num (j + n - 2) else 0)
      ((digit num (j + n) * B + digit num (j + n - 1)) / digit den (n - 1))
      ((digit num (j + n) * B + digit num (j + n - 1)) % digit den (n - 1))).1
    (by rw [hsigv]; exact hph1.1) hph1.2
  show phase2 B L den (divSig B L n j num) (phase1 B (digit den (n - 1))
      (if 2 ≤ n then digit den (n - 2) else 0)
      (if 2 ≤ j + n then digit num (j + n - 2) else 0)
      ((digit num (j + n) * B + digit num (j + n - 1)) / digit den (n - 1))
      ((digit num (j + n) * B + digit num (j + n - 1)) % digit den (n - 1))).1
    = val B num / B ^ j / val B den
  rw [hfinal, hsigv]

/-- Effect of one quotient-digit iteration on the working dividend and
the quotient. -/
theorem divStep_spec (hB2 : 2 ≤ B) {L n j : Nat} {den num q : List Nat}
    (hden : Valid B den) (hdlen : den.length = L + 1)
    (hnum : Valid B num) (hnlen : num.length = L + 1)
    (hq : Valid B q) (hqlen : q.length = L)
    (hn1 : 1 ≤ n) (hnL : n ≤ L)
    (hmsd : most_significant_digit den = n)
    (hjL : j ≤ L) (hjn : j + n ≤ L + 1)
    (hbound : val B num < val B den * B ^ (j + 1))
    (hfit : val B num / val B den < B ^ L)
    (hq0 : ∀ i, i ≤ j → digit q i = 0) :
    Valid B (divStep B L den n j num q).1
    ∧ (divStep B L den n j num q).1.length = L + 1
    ∧ Valid B (divStep B L den n j num q).2
    ∧ (divStep B L den n j num q).2.length = L
    ∧ val B (divStep B L den n j num q).1
        = val B num - val B num / B ^ j / val B den * val B den * B ^ j
    ∧ val B (divStep B L den n j num q).2
        = val B q + val B num / B ^ j / val B den * B ^ j
    ∧ (∀ i, i < j → digit (divStep B L den n j num q).2 i = 0) := by
  have hB : 0 < B := by omega
  have hP1 : (0 : Nat) < B ^ (n - 1) := Nat.pos_pow_of_pos _ hB
  have hD1 : B ^ (n - 1) ≤ val B den := by
    have h := pow_msd_le_val B (l := den) (by omega)
    rwa [hmsd] at h
  have hDn : val B den < B ^ n := by
    have h := val_lt_pow_msd B hB hden
    rwa [hmsd] at h
  have hD0 : 0 < val B den := Nat.lt_of_lt_of_le hP1 hD1
  have hS : val B num / B ^ j < B * val B den := by
    rw [Nat.div_lt_iff_lt_mul (Nat.pos_pow_of_pos j hB)]
    calc val B num < val B den * B ^ (j + 1) := hbound
    _ = B * val B den * B ^ j := by ring
  have hSB : val B num / B ^ j < B ^ (n + 1) := by
    have h1 : B * val B den < B * B ^ n := mul_lt_mul_of_pos_left hDn hB
    have h2 : B * B ^ n = B ^ (n + 1) := by rw [pow_succ, Nat.mul_comm]
    omega
  have hqB : val B num / B ^ j / val B den < B := by
    rw [Nat.div_lt_iff_lt_mul hD0]
    exact hS
  have hqhat := divQhat_spec B hB2 hden hdlen hnum hnlen hn1 hnL hmsd hbound
  have hstep : divStep B L den n j num q
      = ((List.range (n + 1)).foldl
          (fun nu i => set_digit B nu (j + i)
            (digit (sub B (divSig B L n j num)
              (mul B (ofNat B (L + 1) (divQhat B L den n j num)) den)) i)) num,
         set_digit B q j (divQhat B L den n j num)) := rfl
  -- value of the trial product
  have hBpow : B ≤ B ^ (L + 1) := by
    calc B = B ^ 1 := (pow_one B).symm
    _ ≤ B ^ (L + 1) := Nat.pow_le_pow_right hB (by omega)
  have hofv : val B (ofNat B (L + 1) (divQhat B L den n j num))
      = val B num / B ^ j / val B den := by
    rw [hqhat]
    exact val_ofNat_exact B hB (by omega)
  have hprod : val B (ofNat B (L + 1) (divQhat B L den n j num)) * val B den
      < B ^ (ofNat B (L + 1) (divQhat B L den n j num)).length := by
    rw [hofv, length_ofNat]
    have h1 : val B num / B ^ j / val B den * val B den ≤ val B num / B ^ j :=
      Nat.div_mul_le_self _ _
    have h2 : B ^ (n + 1) ≤ B ^ (L + 1) := Nat.pow_le_pow_right hB (by omega)
    omega
  have htrialv : val B (mul B (ofNat B (L + 1) (divQhat B L den n j num)) den)
      = val B num / B ^ j / val B den * val B den := by
    rw [val_mul_exact B hB (valid_ofNat B hB _ _) hden hprod, hofv]
  have htlen : (mul B (ofNat B (L + 1) (divQhat B L den n j num)) den).length = L + 1 := by
    rw [length_mul, length_ofNat]
  have hsigv : val B (divSig B L n j num) = val B num / B ^ j := by
    rw [val_divSig B hB hnum hnL, Nat.mod_eq_of_lt hSB]
  -- value of diff = sig - trial
  have hdiffv : val B (sub B (divSig B L n j num)
      (mul B (ofNat B (L + 1) (divQhat B L den n j num)) den))
      = val B num / B ^ j - val B num / B ^ j / val B den * val B den := by
    rw [val_sub_of_le B hB (valid_divSig B hB L n j num) (valid_mul B hB _ _)
      (by rw [length_divSig, htlen]), hsigv, htrialv]
    rw [htrialv, hsigv]
    exact Nat.div_mul_le_self _ _
  have hdm := Nat.div_add_mod' (val B num / B ^ j) (val B den)
  have hdiffD : val B (sub B (divSig B L n j num)
      (mul B (ofNat B (L + 1) (divQhat B L den n j num)) den)) < val B den := by
    rw [hdiffv]
    have hmlt : val B num / B ^ j % val B den < val B den := Nat.mod_lt _ hD0
    omega
  have hdiffBn : val B (sub B (divSig B L n j num)
      (mul B (ofNat B (L + 1) (divQhat B L den n j num)) den)) < B ^ n := by
    omega
  have hhi : val B num < B ^ (j + n + 1) := by
    have h1 : val B den * B ^ (j + 1) < B ^ n * B ^ (j + 1) :=
      Nat.mul_lt_mul_of_lt_of_le hDn (Nat.le_refl _) (Nat.pos_pow_of_pos _ hB)
    have h2 : B ^ n * B ^ (j + 1) = B ^ (j + n + 1) := by
      rw [← pow_add]
      congr 1
      omega
    omega
  have hwb := val_writeback B hB hnum hnlen
    (valid_sub B hB _ _) hjL hjn hdiffBn hhi
  constructor
  · rw [hstep]
    exact valid_foldl_set B hB _ _ _ _ hnum
  constructor
  · rw [hstep]
    show ((List.range (n + 1)).foldl _ num).length = L + 1
    rw [length_foldl_set, hnlen]
  constructor
  · rw [hstep]
    exact valid_set_digit B hB hq _ _
  constructor
  · rw [hstep]
    show (set_digit B q j (divQhat B L den n j num)).length = L
    rw [length_set_digit, hqlen]
  constructor
  · rw [hstep]
    show val B ((List.range (n + 1)).foldl _ num) = _
    rw [hwb, hdiffv]
    have hmod := Nat.mod_add_div (val B num) (B ^ j)
    have hSD : val B num / B ^ j / val B den * val B den ≤ val B num / B ^ j :=
      Nat.div_mul_le_self _ _
    have hle2 : val B num / B ^ j / val B den * val B den * B ^ j ≤ val B num :=
      Nat.le_trans (Nat.mul_le_mul_right _ hSD) (Nat.div_mul_le_self _ _)
    have hmodZ := congrArg (fun t : Nat => (t : Int)) hmod
    push_cast at hmodZ
    zify [hSD, hle2]
    linear_combination hmodZ
  constructor
  · rw [hstep]
    show val B (set_digit B q j (divQhat B L den n j num)) = _
    rcases Nat.lt_or_ge j L with hjlt | hjge
    · have hex := val_set_digit_exact B q j (divQhat B L den n j num) (by omega)
      rw [hq0 j (Nat.le_refl j), Nat.zero_mul, Nat.add_zero] at hex
      rw [hex, hqhat, Nat.mod_eq_of_lt hqB]
    · have hjeq : j = L := by omega
      have hnoop : set_digit B q j (divQhat B L den n j num) = q := by
        unfold set_digit
        rw [if_neg (by omega)]
      have hzero : val B num / B ^ j / val B den = 0 := by
        have hcm : val B num / B ^ j / val B den = val B num / val B den / B ^ j := by
          rw [Nat.div_div_eq_div_mul, Nat.div_div_eq_div_mul, Nat.mul_comm]
        rw [hcm, hjeq]
        exact Nat.div_eq_of_lt hfit
      rw [hnoop, hzero, Nat.zero_mul, Nat.add_zero]
  · rw [hstep]
    intro i hij
    show digit (set_digit B q j (divQhat B L den n j num)) i = 0
    rw [digit_set_digit, if_neg (by omega)]
    exact hq0 i (by omega)

/-- The quotient-digit loop is correct: running the windows `j, j-1, ..., 0`
over a dividend bounded by `den * B ^ (j+1)` accumulates exactly the
quotient `num / den` on top of the digits of `q` above place `j`. -/
theorem divGo_spec (hB2 : 2 ≤ B) {L n : Nat} {den : List Nat}
    (hden : Valid B den) (hdlen : den.length = L + 1)
    (hn1 : 1 ≤ n) (hnL : n ≤ L)
    (hmsd : most_significant_digit den = n) :
    ∀ (j : Nat) (num q : List Nat), Valid B num → num.length = L + 1 →
      Valid B q → q.length = L →
      j ≤ L → j + n ≤ L + 1 →
      val B num < val B den * B ^ (j + 1) →
      val B num / val B den < B ^ L →
      (∀ i, i ≤ j → digit q i = 0) →
      Valid B (divGo B L den n j num q)
      ∧ (divGo B L den n j num q).length = L
      ∧ val B (divGo B L den n j num q) = val B q + val B num / val B den := by
  have hB : 0 < B := by omega
  have hD0 : 0 < val B den := by
    have h := pow_msd_le_val B (l := den) (by omega)
    have h2 : (0 : Nat) < B ^ (most_significant_digit den - 1) :=
      Nat.pos_pow_of_pos _ hB
    omega
  intro j
  induction j with
  | zero =>
    intro num q hnum hnlen hq hqlen hjL hjn hbound hfit hq0
    obtain ⟨_, _, h3, h4, _, h6, _⟩ := divStep_spec B hB2 hden hdlen hnum hnlen
      hq hqlen hn1 hnL hmsd hjL hjn hbound hfit hq0
    refine ⟨h3, h4, ?_⟩
    show val B (divStep B L den n 0 num q).2 = _
    rw [h6, pow_zero, Nat.div_one, Nat.mul_one]
  | succ j ih =>
    intro num q hnum hnlen hq hqlen hjL hjn hbound hfit hq0
    obtain ⟨h1, h2, h3, h4, h5, h6, h7⟩ := divStep_spec B hB2 hden hdlen hnum hnlen
      hq hqlen hn1 hnL hmsd hjL hjn hbound hfit hq0
    have hPpos : (0 : Nat) < B ^ (j + 1) := Nat.pos_pow_of_pos _ hB
    have hS1 := lt_div_succ_mul (val B num) (B ^ (j + 1)) hPpos
    have hS2 := lt_div_succ_mul (val B num / B ^ (j + 1)) (val B den) hD0
    rw [Nat.add_mul, Nat.one_mul] at hS2
    have hk : val B num / B ^ (j + 1) + 1
        ≤ val B num / B ^ (j + 1) / val B den * val B den + val B den := by omega
    have hm : (val B num / B ^ (j + 1) + 1) * B ^ (j + 1)
        ≤ val B num / B ^ (j + 1) / val B den * val B den * B ^ (j + 1)
          + val B den * B ^ (j + 1) := by
      rw [← Nat.add_mul]
      exact mul_le_mul_right' hk (B ^ (j + 1))
    have hle : val B num / B ^ (j + 1) / val B den * val B den * B ^ (j + 1)
        ≤ val B num := by
      have ha : val B num / B ^ (j + 1) / val B den * val B den
          ≤ val B num / B ^ (j + 1) := Nat.div_mul_le_self _ _
      exact Nat.le_trans (mul_le_mul_right' ha (B ^ (j + 1)))
        (Nat.div_mul_le_self _ _)
    have hbound2 : val B (divStep B L den n (j + 1) num q).1
        < val B den * B ^ (j + 1) := by
      rw [h5, tsub_lt_iff_right hle]
      calc val B num < (val B num / B ^ (j + 1) + 1) * B ^ (j + 1) := hS1
      _ ≤ val B num / B ^ (j + 1) / val B den * val B den * B ^ (j + 1)
          + val B den * B ^ (j + 1) := hm
      _ = val B den * B ^ (j + 1)
          + val B num / B ^ (j + 1) / val B den * val B den * B ^ (j + 1) :=
        Nat.add_comm _ _
    have hfit2 : val B (divStep B L den n (j + 1) num q).1 / val B den < B ^ L := by
      rw [h5]
      have hle := Nat.div_le_div_right (c := val B den)
        (Nat.sub_le (val B num) (val B num / B ^ (j + 1) / val B den * val B den
          * B ^ (j + 1)))
      omega
    have hq02 : ∀ i, i ≤ j → digit (divStep B L den n (j + 1) num q).2 i = 0 := by
      intro i hi
      exact h7 i (by omega)
    obtain ⟨g1, g2, g3⟩ := ih (divStep B L den n (j + 1) num q).1
      (divStep B L den n (j + 1) num q).2 h1 h2 h3 h4 (by omega) (by omega)
      hbound2 hfit2 hq02
    refine ⟨g1, g2, ?_⟩
    show val B (divGo B L den n j (divStep B L den n (j + 1) num q).1
      (divStep B L den n (j + 1) num q).2) = _
    rw [g3, h5, h6]
    have hsplit : val B num - val B num / B ^ (j + 1) / val B den * val B den
          * B ^ (j + 1)
        + val B num / B ^ (j + 1) / val B den * B ^ (j + 1) * val B den
        = val B num := by
      rw [show val B num / B ^ (j + 1) / val B den * B ^ (j + 1) * val B den
          = val B num / B ^ (j + 1) / val B den * val B den * B ^ (j + 1) from by
        ring]
      exact Nat.sub_add_cancel hle
    have hAd : val B num / val B den
        = (val B num - val B num / B ^ (j + 1) / val B den * val B den
            * B ^ (j + 1)) / val B den
          + val B num / B ^ (j + 1) / val B den * B ^ (j + 1) := by
      rw [← Nat.add_mul_div_right _ _ hD0, hsplit]
    omega


/-- Correctness of the general long-division path: after normalizing both
operands by `B / (t + 1)` (where `t` is the leading divisor digit) the
quotient-digit loop computes exactly `val x / val y`. -/
theorem divMain_spec (hB2 : 2 ≤ B) {x y : List Nat}
    (hx : Valid B x) (hy : Valid B y) (hlen : y.length = x.length)
    (hvx : 0 < val B x) (hvy2 : 2 ≤ val B y) (hvyx : val B y < val B x) :
    Valid B (divMain B x.length x y)
    ∧ (divMain B x.length x y).length = x.length
    ∧ val B (divMain B x.length x y) = val B x / val B y := by
  have hB : 0 < B := by omega
  have hxne : x ≠ [] := by
    intro h
    rw [h] at hvx
    exact Nat.lt_irrefl 0 hvx
  have hL1 : 1 ≤ x.length := List.length_pos.mpr hxne
  have hny1 : 1 ≤ most_significant_digit y := by
    by_contra hc
    have h0 : most_significant_digit y = 0 := by omega
    have := (msd_eq_zero_iff B hB hy).mp h0
    omega
  have hyBny : val B y < B ^ most_significant_digit y := val_lt_pow_msd B hB hy
  have hynyle : B ^ (most_significant_digit y - 1) ≤ val B y :=
    pow_msd_le_val B (by omega)
  have hppos : (0 : Nat) < B ^ (most_significant_digit y - 1) :=
    Nat.pos_pow_of_pos _ hB
  have hqlt : val B y / B ^ (most_significant_digit y - 1) < B := by
    rw [Nat.div_lt_iff_lt_mul hppos]
    calc val B y < B ^ most_significant_digit y := hyBny
    _ = B * B ^ (most_significant_digit y - 1) := by
        rw [← pow_succ']
        congr 1
        omega
  have hqge : 1 ≤ val B y / B ^ (most_significant_digit y - 1) :=
    (Nat.one_le_div_iff hppos).mpr hynyle
  have ht : digit y (most_significant_digit y - 1)
      = val B y / B ^ (most_significant_digit y - 1) := by
    rw [digit_eq_div_mod B hB hy, Nat.mod_eq_of_lt hqlt]
  have ht1 : 1 ≤ digit y (most_significant_digit y - 1) := by rw [ht]; exact hqge
  have htB : digit y (most_significant_digit y - 1) < B := by rw [ht]; exact hqlt
  have htop : val B y < B ^ (most_significant_digit y - 1)
      * (digit y (most_significant_digit y - 1) + 1) := by
    have hsplit := Nat.mod_add_div (val B y) (B ^ (most_significant_digit y - 1))
    have hmlt : val B y % B ^ (most_significant_digit y - 1)
        < B ^ (most_significant_digit y - 1) := Nat.mod_lt _ hppos
    rw [Nat.mul_add, Nat.mul_one, ht]
    omega
  set t := digit y (most_significant_digit y - 1) with ht_def
  have hns1 : 1 ≤ B / (t + 1) := (Nat.one_le_div_iff (by omega)).mpr (by omega)
  have hnsB : B / (t + 1) * (t + 1) ≤ B := Nat.div_mul_le_self _ _
  have hnslt : B / (t + 1) < B ^ (x.length + 1) := by
    have h1 : B / (t + 1) ≤ B := Nat.div_le_self _ _
    have h2 : B ≤ B ^ x.length := Nat.le_self_pow (by omega) B
    have h3 : B ^ x.length < B ^ (x.length + 1) :=
      Nat.pow_lt_pow_right (by omega) (Nat.lt_succ_self _)
    omega
  set NORM := ofNat B (x.length + 1) (B / (t + 1)) with hNORM_def
  have hnormv : val B NORM = B / (t + 1) := val_ofNat_exact B hB hnslt
  have hnormvalid : Valid B NORM := valid_ofNat B hB _ _
  have hxa_len : (x ++ [0]).length = x.length + 1 := by simp
  have hya_len : (y ++ [0]).length = x.length + 1 := by simp [hlen]
  have h0valid : Valid B [0] := valid_cons B hB (valid_nil B)
  have hxa_valid : Valid B (x ++ [0]) := valid_append B hx h0valid
  have hya_valid : Valid B (y ++ [0]) := valid_append B hy h0valid
  have h0v : val B [0] = 0 := by
    rw [val_cons, val_nil]
    omega
  have hxa_val : val B (x ++ [0]) = val B x := by
    rw [val_append, h0v, Nat.mul_zero, Nat.add_zero]
  have hya_val : val B (y ++ [0]) = val B y := by
    rw [val_append, h0v, Nat.mul_zero, Nat.add_zero]
  set NUM := mul B (x ++ [0]) NORM with hNUM_def
  set DEN := mul B (y ++ [0]) NORM with hDEN_def
  have hprodx : val B (x ++ [0]) * val B NORM < B ^ (x ++ [0]).length := by
    rw [hxa_val, hnormv, hxa_len]
    have h1 : val B x * (B / (t + 1)) ≤ val B x * B :=
      Nat.mul_le_mul_left (val B x) (Nat.div_le_self _ _)
    have h2 : val B x * B < B ^ x.length * B :=
      (Nat.mul_lt_mul_right hB).mpr (val_lt B hx)
    have h3 : B ^ x.length * B = B ^ (x.length + 1) := (pow_succ B x.length).symm
    omega
  have hA : val B NUM = val B x * (B / (t + 1)) := by
    rw [hNUM_def, val_mul_exact B hB hxa_valid hnormvalid hprodx, hxa_val, hnormv]
  have hprody : val B (y ++ [0]) * val B NORM < B ^ (y ++ [0]).length := by
    rw [hya_val, hnormv, hya_len]
    have h1 : val B y * (B / (t + 1)) ≤ val B y * B :=
      Nat.mul_le_mul_left (val B y) (Nat.div_le_self _ _)
    have h2 : val B y * B < B ^ x.length * B :=
      (Nat.mul_lt_mul_right hB).mpr (by
        have h4 := val_lt B hy
        rw [hlen] at h4
        exact h4)
    have h3 : B ^ x.length * B = B ^ (x.length + 1) := (pow_succ B x.length).symm
    omega
  have hD : val B DEN = val B y * (B / (t + 1)) := by
    rw [hDEN_def, val_mul_exact B hB hya_valid hnormvalid hprody, hya_val, hnormv]
  have hNUMvalid : Valid B NUM := valid_mul B hB _ _
  have hDENvalid : Valid B DEN := valid_mul B hB _ _
  have hNUMlen : NUM.length = x.length + 1 := by rw [hNUM_def, length_mul, hxa_len]
  have hDENlen : DEN.length = x.length + 1 := by rw [hDEN_def, length_mul, hya_len]
  have hDge : B ^ (most_significant_digit y - 1) ≤ val B DEN := by
    rw [hD]
    calc B ^ (most_significant_digit y - 1) ≤ val B y := hynyle
    _ = val B y * 1 := (Nat.mul_one _).symm
    _ ≤ val B y * (B / (t + 1)) := Nat.mul_le_mul_left (val B y) hns1
  have hDlt : val B DEN < B ^ most_significant_digit y := by
    rw [hD]
    calc val B y * (B / (t + 1))
        < B ^ (most_significant_digit y - 1) * (t + 1) * (B / (t + 1)) :=
          (Nat.mul_lt_mul_right (by omega)).mpr htop
    _ = B ^ (most_significant_digit y - 1) * (B / (t + 1) * (t + 1)) := by ring
    _ ≤ B ^ (most_significant_digit y - 1) * B :=
        Nat.mul_le_mul_left (B ^ (most_significant_digit y - 1)) hnsB
    _ = B ^ most_significant_digit y := by
        rw [← pow_succ]
        congr 1
        omega
  have hDpos : 0 < val B DEN := Nat.lt_of_lt_of_le hppos hDge
  have hn_eq : most_significant_digit DEN = most_significant_digit y := by
    have h1 := msd_le_of_val_lt B hB hDENvalid hDlt
    have h2 := val_lt_pow_msd B hB hDENvalid
    by_contra hc
    have h3 : most_significant_digit DEN ≤ most_significant_digit y - 1 := by omega
    have h4 : B ^ most_significant_digit DEN ≤ B ^ (most_significant_digit y - 1) :=
      Nat.pow_le_pow_right hB h3
    omega
  have hADle : val B DEN ≤ val B NUM := by
    rw [hA, hD]
    exact mul_le_mul_right' (by omega) (B / (t + 1))
  have hmsdge : most_significant_digit y ≤ most_significant_digit NUM := by
    have h1 := msd_mono B hB hDENvalid hNUMvalid hADle
    omega
  have hmsdle : most_significant_digit NUM ≤ x.length + 1 := by
    have h1 := msd_le_length NUM
    omega
  have hnyL : most_significant_digit y ≤ x.length := by
    have h1 := msd_le_length y
    omega
  have hbound : val B NUM < val B DEN
      * B ^ ((most_significant_digit NUM - most_significant_digit y) + 1) := by
    calc val B NUM < B ^ most_significant_digit NUM := val_lt_pow_msd B hB hNUMvalid
    _ = B ^ (most_significant_digit y - 1)
        * B ^ ((most_significant_digit NUM - most_significant_digit y) + 1) := by
        rw [← pow_add]
        congr 1
        omega
    _ ≤ val B DEN
        * B ^ ((most_significant_digit NUM - most_significant_digit y) + 1) :=
        mul_le_mul_right' hDge _
  have hfit : val B NUM / val B DEN < B ^ x.length := by
    rw [hA, hD, Nat.mul_div_mul_right _ _ (by omega : 0 < B / (t + 1))]
    have h1 : val B x / val B y ≤ val B x := Nat.div_le_self _ _
    have h2 := val_lt B hx
    omega
  obtain ⟨g1, g2, g3⟩ := divGo_spec B hB2 hDENvalid hDENlen hny1 hnyL hn_eq
    (most_significant_digit NUM - most_significant_digit y) NUM
    (List.replicate x.length 0) hNUMvalid hNUMlen
    (valid_replicate B hB x.length) (List.length_replicate _ _)
    (by omega) (by omega) hbound hfit
    (fun i _ => digit_replicate x.length i)
  have hdm : divMain B x.length x y
      = divGo B x.length DEN (most_significant_digit DEN)
          (most_significant_digit NUM - most_significant_digit DEN) NUM
          (List.replicate x.length 0) := rfl
  rw [hn_eq] at hdm
  refine ⟨?_, ?_, ?_⟩
  · rw [hdm]
    exact g1
  · rw [hdm]
    exact g2
  · rw [hdm, g3, val_replicate_zero, Nat.zero_add, hA, hD,
      Nat.mul_div_mul_right _ _ (by omega : 0 < B / (t + 1))]

/-- Correctness of `number::operator/` against truncating natural division,
including division by zero, which yields zero. -/
theorem divN_correct (hB2 : 2 ≤ B) {x y : List Nat}
    (hx : Valid B x) (hy : Valid B y) (hlen : y.length = x.length) :
    Valid B (divN B x y) ∧ (divN B x y).length = x.length
    ∧ val B (divN B x y) = val B x / val B y := by
  have hB : 0 < B := by omega
  have hdef : divN B x y
      = if x = ofNat B x.length 0 ∨ y = ofNat B x.length 0 ∨ ltN x y
        then ofNat B x.length 0
        else if y = x then ofNat B x.length 1
        else if y = ofNat B x.length 1 then x
        else divMain B x.length x y := rfl
  rw [hdef]
  by_cases h1 : x = ofNat B x.length 0 ∨ y = ofNat B x.length 0 ∨ ltN x y
  · rw [if_pos h1]
    refine ⟨valid_ofNat B hB _ _, length_ofNat B _ _, ?_⟩
    have hv0 : val B (ofNat B x.length 0) = 0 := by
      rw [val_ofNat B hB, Nat.zero_mod]
    rw [hv0]
    rcases h1 with hx0 | hy0 | hlt
    · have hv : val B x = 0 := by rw [hx0, hv0]
      rw [hv, Nat.zero_div]
    · have hv : val B y = 0 := by rw [hy0, hv0]
      rw [hv, Nat.div_zero]
    · have hvlt : val B x < val B y := (ltN_iff B hB hx hy hlen.symm).mp hlt
      rw [Nat.div_eq_of_lt hvlt]
  · rw [if_neg h1]
    have hx0 : x ≠ ofNat B x.length 0 := fun h => h1 (Or.inl h)
    have hy0 : y ≠ ofNat B x.length 0 := fun h => h1 (Or.inr (Or.inl h))
    have hnlt : ltN x y = false := by
      cases h : ltN x y with
      | false => rfl
      | true => exact absurd (Or.inr (Or.inr h)) h1
    have hv0 : val B (ofNat B x.length 0) = 0 := by
      rw [val_ofNat B hB, Nat.zero_mod]
    have hvx0 : val B x ≠ 0 := by
      intro hv
      exact hx0 ((eqN_iff B hB hx (valid_ofNat B hB _ _)
        (by rw [length_ofNat])).mpr (by rw [hv, hv0]))
    have hvy0 : val B y ≠ 0 := by
      intro hv
      apply hy0
      refine (eqN_iff B hB hy (valid_ofNat B hB _ _) ?_).mpr (by rw [hv, hv0])
      rw [length_ofNat]
      exact hlen
    have hxne : x ≠ [] := by
      intro h
      apply hvx0
      rw [h, val_nil]
    have hL1 : 1 ≤ x.length := List.length_pos.mpr hxne
    have h1lt : 1 < B ^ x.length := by
      have h2 : B ≤ B ^ x.length := Nat.le_self_pow (by omega) B
      omega
    have hyx : val B y ≤ val B x := (ltN_false_iff B hB hx hy hlen.symm).mp hnlt
    by_cases h2 : y = x
    · rw [if_pos h2]
      refine ⟨valid_ofNat B hB _ _, length_ofNat B _ _, ?_⟩
      rw [val_ofNat_exact B hB h1lt, h2, Nat.div_self (by omega)]
    · rw [if_neg h2]
      by_cases h3 : y = ofNat B x.length 1
      · rw [if_pos h3]
        refine ⟨hx, rfl, ?_⟩
        have hvy1 : val B y = 1 := by rw [h3, val_ofNat_exact B hB h1lt]
        rw [hvy1, Nat.div_one]
      · rw [if_neg h3]
        have hvy1 : val B y ≠ 1 := by
          intro hv
          apply h3
          refine (eqN_iff B hB hy (valid_ofNat B hB _ _) ?_).mpr
            (by rw [hv, val_ofNat_exact B hB h1lt])
          rw [length_ofNat]
          exact hlen
        have hvyx : val B y < val B x := by
          have hne : val B y ≠ val B x := fun h =>
            h2 ((eqN_iff B hB hy hx hlen).mpr h)
          omega
        exact divMain_spec B hB2 hx hy hlen (by omega) (by omega) hvyx

/-- Correctness of `number::operator%` (computed as `a - (a / b) * b`)
against the truncating natural remainder; for a zero divisor it returns the
dividend, matching `a % 0 = a` on `Nat`. -/
theorem modN_correct (hB2 : 2 ≤ B) {x y : List Nat}
    (hx : Valid B x) (hy : Valid B y) (hlen : y.length = x.length) :
    Valid B (modN B x y) ∧ (modN B x y).length = x.length
    ∧ val B (modN B x y) = val B x % val B y := by
  have hB : 0 < B := by omega
  obtain ⟨hdv, hdl, hdval⟩ := divN_correct B hB2 hx hy hlen
  have hprod : val B (divN B x y) * val B y < B ^ (divN B x y).length := by
    rw [hdval, hdl]
    have h1 : val B x / val B y * val B y ≤ val B x := Nat.div_mul_le_self _ _
    have h2 := val_lt B hx
    omega
  have hmulv : val B (mul B (divN B x y) y) = val B x / val B y * val B y := by
    rw [val_mul_exact B hB hdv hy hprod, hdval]
  have hmlen : (mul B (divN B x y) y).length = x.length := by
    rw [length_mul, hdl]
  have hmle : val B (mul B (divN B x y) y) ≤ val B x := by
    rw [hmulv]
    exact Nat.div_mul_le_self _ _
  refine ⟨valid_sub B hB _ _, ?_, ?_⟩
  · show (sub B x (mul B (divN B x y) y)).length = x.length
    rw [length_sub]
  · show val B (sub B x (mul B (divN B x y) y)) = val B x % val B y
    rw [val_sub_of_le B hB hx (valid_mul B hB _ _) hmlen.symm hmle, hmulv]
    have h5 := Nat.mod_add_div' (val B x) (val B y)
    omega


/-! Small helpers used by the claim-level theorems. -/

/-- Wraparound of fixed-width unsigned subtraction, stated over `Int`. -/
theorem int_sub_emod_aux (A C p : Nat) (hA : A < p) (hC : C < p) :
    (((A + p - C) % p : Nat) : Int) = ((A : Int) - (C : Int)) % (p : Int) := by
  rcases Nat.lt_or_ge A C with h | h
  · have hr : A + p - C < p := by omega
    rw [Nat.mod_eq_of_lt hr]
    have hes : (A : Int) - C = ((A + p - C : Nat) : Int) - p := by omega
    rw [hes, Int.sub_emod, Int.emod_self, Int.sub_zero,
      Int.emod_emod_of_dvd _ (dvd_refl _)]
    exact (Int.emod_eq_of_lt (Int.natCast_nonneg _) (by exact_mod_cast hr)).symm
  · have heq : A + p - C = (A - C) + p := by omega
    rw [heq, Nat.add_mod_right, Nat.mod_eq_of_lt (by omega)]
    have hes : (A : Int) - C = ((A - C : Nat) : Int) := by omega
    rw [hes]
    exact (Int.emod_eq_of_lt (Int.natCast_nonneg _)
      (by exact_mod_cast (show A - C < p by omega))).symm


/-! The string codec: parsing accumulates digit values against wrapped
powers of the base, printing extracts digits by repeated division. -/

/-- Value of a digit-character list read least-significant first with
`decode_char`; `none` as soon as any character fails to decode. -/
def decodeLSF (base : Nat) : List Char → Option Nat
  | [] => some 0
  | c :: cs =>
    match decode_char base c, decodeLSF base cs with
    | some d, some v => some (d + base * v)
    | _, _ => none

theorem decodeLSF_cons (base : Nat) (c : Char) (cs : List Char) :
    decodeLSF base (c :: cs)
      = match decode_char base c, decodeLSF base cs with
        | some d, some v => some (d + base * v)
        | _, _ => none := rfl

theorem fromStringGo_cons (L base : Nat) (c : Char) (rest : List Char)
    (r p : List Nat) :
    fromStringGo B L base (c :: rest) r p
      = match decode_char base c with
        | some v => fromStringGo B L base rest
            (add B r (mul B (ofNat B L v) p)) (mul B p (ofNat B L base))
        | none => none := rfl

theorem toStringF_succ (b : List Nat) (f : Nat) (n : List Nat) :
    toStringF B b (f + 1) n
      = if n = List.replicate n.length 0 then some []
        else match toStringF B b f (divN B n b) with
          | some s => some (s ++ [digitChar (conv B 32 (modN B n b))])
          | none => none := rfl

theorem toStringF_zero (b : List Nat) (fuel : Nat) {n : List Nat}
    (h : n = List.replicate n.length 0) : toStringF B b fuel n = some [] := by
  cases fuel with
  | zero =>
    show (if n = List.replicate n.length 0 then some [] else none) = some []
    rw [if_pos h]
  | succ f =>
    rw [toStringF_succ, if_pos h]

/-- `to_string`'s emitted character for a digit below 16 decodes back to
that digit exactly when the digit is below the base. -/
theorem decode_digitChar_key (base : Nat) :
    ∀ d : Nat, d < 16 →
    decode_char base (digitChar d) = if d < base then some d else none := by
  intro d hd
  interval_cases d <;> rfl

theorem decode_digitChar (base : Nat) {d : Nat} (hd : d < base)
    (hd16 : d < 16) : decode_char base (digitChar d) = some d := by
  rw [decode_digitChar_key base d hd16, if_pos hd]

/-- `from_string` fails exactly when some character fails to decode. -/
theorem fromStringGo_none (L base : Nat) :
    ∀ (cs : List Char) (r p : List Nat),
    (fromStringGo B L base cs r p = none ↔ ∃ c ∈ cs, decode_char base c = none) := by
  intro cs
  induction cs with
  | nil =>
    intro r p
    constructor
    · intro h
      exact absurd h (by simp [fromStringGo])
    · rintro ⟨c, hc, _⟩
      cases hc
  | cons c rest ih =>
    intro r p
    rw [fromStringGo_cons]
    cases hdc : decode_char base c with
    | none =>
      constructor
      · intro _
        exact ⟨c, List.mem_cons_self c rest, hdc⟩
      · intro _
        rfl
    | some v =>
      rw [ih]
      constructor
      · rintro ⟨e, he, hde⟩
        exact ⟨e, List.mem_cons_of_mem c he, hde⟩
      · rintro ⟨e, he, hde⟩
        rcases List.mem_cons.mp he with rfl | he2
        · rw [hdc] at hde
          cases hde
        · exact ⟨e, he2, hde⟩

/-- The parsing loop: if every character decodes, the result is valid,
`L` digits wide, and congruent to `result + v * power` modulo `B ^ L`,
where `v` is the decoded value of the remaining characters. -/
theorem fromStringGo_parse (hB : 0 < B) (L base : Nat) :
    ∀ (cs : List Char) (v : Nat) (r p : List Nat), Valid B r → r.length = L →
    Valid B p → p.length = L → decodeLSF base cs = some v →
    ∃ out, fromStringGo B L base cs r p = some out ∧ Valid B out
      ∧ out.length = L ∧ val B out ≡ val B r + v * val B p [MOD B ^ L] := by
  intro cs
  induction cs with
  | nil =>
    intro v r p hr hrl hp hpl hv
    have hv0 : v = 0 := by
      have h : some 0 = some v := hv
      cases h
      rfl
    refine ⟨r, rfl, hr, hrl, ?_⟩
    rw [hv0, Nat.zero_mul, Nat.add_zero]
  | cons c cs ih =>
    intro v r p hr hrl hp hpl hv
    rw [decodeLSF_cons] at hv
    cases hdc : decode_char base c with
    | none =>
      rw [hdc] at hv
      cases hv
    | some d =>
      rw [hdc] at hv
      cases hdl : decodeLSF base cs with
      | none =>
        rw [hdl] at hv
        cases hv
      | some v2 =>
        rw [hdl] at hv
        have hveq : v = d + base * v2 := by
          have h : some (d + base * v2) = some v := hv
          cases h
          rfl
        have hrl2 : (add B r (mul B (ofNat B L d) p)).length = L := by
          rw [length_add, hrl]
        have hpl2 : (mul B p (ofNat B L base)).length = L := by
          rw [length_mul, hpl]
        obtain ⟨out, ho, hov, hol, hom⟩ := ih v2
          (add B r (mul B (ofNat B L d) p)) (mul B p (ofNat B L base))
          (valid_add B hB _ _) hrl2 (valid_mul B hB _ _) hpl2 hdl
        refine ⟨out, ?_, hov, hol, ?_⟩
        · rw [fromStringGo_cons, hdc]
          exact ho
        · have hmd : val B (mul B (ofNat B L d) p) ≡ d * val B p [MOD B ^ L] := by
            rw [val_mul B hB (valid_ofNat B hB _ _) hp, length_ofNat,
              val_ofNat B hB]
            calc (d % B ^ L * val B p) % B ^ L
                ≡ d % B ^ L * val B p [MOD B ^ L] := Nat.mod_modEq _ _
            _ ≡ d * val B p [MOD B ^ L] :=
                Nat.ModEq.mul_right _ (Nat.mod_modEq d _)
          have hrv : val B (add B r (mul B (ofNat B L d) p))
              ≡ val B r + d * val B p [MOD B ^ L] := by
            rw [val_add B hB hr (valid_mul B hB _ _)
              (by rw [length_mul, length_ofNat, hrl]), hrl]
            calc (val B r + val B (mul B (ofNat B L d) p)) % B ^ L
                ≡ val B r + val B (mul B (ofNat B L d) p) [MOD B ^ L] :=
                  Nat.mod_modEq _ _
            _ ≡ val B r + d * val B p [MOD B ^ L] := Nat.ModEq.add_left _ hmd
          have hpv : val B (mul B p (ofNat B L base))
              ≡ val B p * base [MOD B ^ L] := by
            rw [val_mul B hB hp (valid_ofNat B hB _ _), hpl, val_ofNat B hB]
            calc (val B p * (base % B ^ L)) % B ^ L
                ≡ val B p * (base % B ^ L) [MOD B ^ L] := Nat.mod_modEq _ _
            _ ≡ val B p * base [MOD B ^ L] :=
                Nat.ModEq.mul_left _ (Nat.mod_modEq base _)
          calc val B out
              ≡ val B (add B r (mul B (ofNat B L d) p))
                + v2 * val B (mul B p (ofNat B L base)) [MOD B ^ L] := hom
          _ ≡ (val B r + d * val B p) + v2 * (val B p * base) [MOD B ^ L] :=
              Nat.ModEq.add hrv (Nat.ModEq.mul_left v2 hpv)
          _ = val B r + (d + base * v2) * val B p := by ring
          _ = val B r + v * val B p := by rw [hveq]

/-- `from_string` on a list of decodable characters yields the decoded
value reduced modulo `B ^ L`. -/
theorem from_string_parse (hB : 0 < B) {L base : Nat}
    {s : List Char} {v : Nat} (hBL : 2 ≤ B ^ L)
    (hd : decodeLSF base s.reverse = some v) :
    ∃ out, from_string B L base s = some out ∧ Valid B out ∧ out.length = L
      ∧ val B out = v % B ^ L := by
  obtain ⟨out, ho, hov, hol, hom⟩ := fromStringGo_parse B hB L base s.reverse v
    (List.replicate L 0) (ofNat B L 1) (valid_replicate B hB L)
    (List.length_replicate _ _) (valid_ofNat B hB _ _) (length_ofNat B _ _) hd
  refine ⟨out, ho, hov, hol, ?_⟩
  have h1 : val B (ofNat B L 1) = 1 := val_ofNat_exact B hB (by omega)
  rw [val_replicate_zero, h1, Nat.mul_one, Nat.zero_add] at hom
  have h2 : val B out < B ^ L := by
    have h3 := val_lt B hov
    rwa [hol] at h3
  have h4 : val B out % B ^ L = v % B ^ L := hom
  rw [← h4, Nat.mod_eq_of_lt h2]

/-- The printing loop terminates with enough fuel when the in-width base
value is at least 2, and the produced string re-decodes (least significant
character first) to a value congruent to the printed one. -/
theorem toStringF_spec (hB2 : 2 ≤ B) {L base : Nat} {b : List Nat}
    (hb : Valid B b) (hblen : b.length = L) (hbv2 : 2 ≤ val B b)
    (hble : val B b ≤ base) (hbase : base ≤ 16)
    (hbm : base ≡ val B b [MOD B ^ L]) :
    ∀ (fuel : Nat) (n : List Nat), Valid B n → n.length = L →
    val B n < val B b ^ fuel →
    ∃ s v, toStringF B b fuel n = some s ∧ decodeLSF base s.reverse = some v
      ∧ v ≡ val B n [MOD B ^ L] := by
  have hB : 0 < B := by omega
  intro fuel
  induction fuel with
  | zero =>
    intro n hn hnl hnv
    rw [pow_zero] at hnv
    have hz : val B n = 0 := by omega
    refine ⟨[], 0, toStringF_zero B b 0 ((val_eq_zero_iff B hB hn).mp hz), rfl, ?_⟩
    rw [hz]
  | succ f ih =>
    intro n hn hnl hnv
    by_cases hz : n = List.replicate n.length 0
    · refine ⟨[], 0, toStringF_zero B b (f + 1) hz, rfl, ?_⟩
      rw [(val_eq_zero_iff B hB hn).mpr hz]
    · have hvnz : val B n ≠ 0 := fun h => hz ((val_eq_zero_iff B hB hn).mp h)
      have hbpos : 0 < val B b := by omega
      obtain ⟨hdvv, hdvl, hdvval⟩ := divN_correct B hB2 hn hb (by rw [hblen, hnl])
      obtain ⟨hmvv, hmvl, hmvval⟩ := modN_correct B hB2 hn hb (by rw [hblen, hnl])
      have hrec : val B (divN B n b) < val B b ^ f := by
        rw [hdvval, Nat.div_lt_iff_lt_mul hbpos]
        have h5 := hnv
        rw [pow_succ] at h5
        exact h5
      obtain ⟨s, v2, hs, hsd, hsm⟩ := ih (divN B n b) hdvv (by rw [hdvl, hnl]) hrec
      have hdlt : val B n % val B b < val B b := Nat.mod_lt _ hbpos
      have hdig : conv B 32 (modN B n b) = val B n % val B b := by
        rw [conv_exact B hB (by omega) hmvv ?_, hmvval]
        rw [hmvval]
        calc val B n % val B b < val B b := hdlt
        _ ≤ 16 := le_trans hble hbase
        _ < 2 ^ 32 := by norm_num
      refine ⟨s ++ [digitChar (conv B 32 (modN B n b))],
        val B n % val B b + base * v2, ?_, ?_, ?_⟩
      · rw [toStringF_succ, if_neg hz, hs]
      · rw [List.reverse_append, List.reverse_singleton, List.singleton_append,
          decodeLSF_cons, hdig,
          decode_digitChar base (by omega : val B n % val B b < base)
            (by omega : val B n % val B b < 16), hsd]
      · have h1 : base * v2 ≡ val B b * (val B n / val B b) [MOD B ^ L] := by
          calc base * v2 ≡ val B b * v2 [MOD B ^ L] := Nat.ModEq.mul_right v2 hbm
          _ ≡ val B b * (val B n / val B b) [MOD B ^ L] := by
              refine Nat.ModEq.mul_left _ ?_
              rw [← hdvval]
              exact hsm
        calc val B n % val B b + base * v2
            ≡ val B n % val B b + val B b * (val B n / val B b) [MOD B ^ L] :=
              Nat.ModEq.add_left _ h1
        _ = val B n := Nat.mod_add_div _ _

/-- With three base-3 digits worth of width 1 the decimal base reduces to
the in-width value 1, and `to_string` of a nonzero value never terminates:
division by one leaves the value unchanged, so no fuel bound suffices. -/
theorem toStringF_diverges_example :
    ∀ fuel, toStringF 3 (ofNat 3 1 10) fuel [2] = none := by
  intro fuel
  induction fuel with
  | zero => rfl
  | succ f ih =>
    rw [toStringF_succ, if_neg (by decide),
      show divN 3 [2] (ofNat 3 1 10) = [2] from by decide, ih]

end Number

namespace IntegerW

open Number

/-- Sign-magnitude value of class `integer`: a `positive_` flag and a
`magnitude_` number. -/
structure IntSM where
  positive : Bool
  magnitude : List Nat
  deriving DecidableEq, Repr

variable (B : Nat)

/-- Embeds `integer()`: `positive_` defaults to `true` and the magnitude
default-constructs to the zero number. -/
def default (L : Nat) : IntSM := ⟨true, List.replicate L 0⟩

/-- Embeds construction of an `integer` from a native signed value:
`positive_ = value >= 0`, magnitude is the absolute value. -/
def ofInt (L : Nat) (v : Int) : IntSM := ⟨decide (0 ≤ v), Number.ofNat B L v.natAbs⟩

/-- Embeds unary `integer::operator+`: the sign is forced positive. -/
def uplus (x : IntSM) : IntSM := ⟨true, x.magnitude⟩

/-- Embeds unary `integer::operator-`: flips the sign unless the magnitude
is the zero number. -/
def negI (x : IntSM) : IntSM :=
  if x.magnitude = List.replicate x.magnitude.length 0 then x
  else ⟨!x.positive, x.magnitude⟩

/-- Embeds `integer::operator+`. -/
def addI (x y : IntSM) : IntSM :=
  if x.positive = y.positive then ⟨x.positive, add B x.magnitude y.magnitude⟩
  else if ltN x.magnitude y.magnitude then ⟨y.positive, sub B y.magnitude x.magnitude⟩
  else if ltN y.magnitude x.magnitude then ⟨x.positive, sub B x.magnitude y.magnitude⟩
  else default x.magnitude.length

/-- Embeds `integer::operator-`: `*this + (-rhs)`. -/
def subI (x y : IntSM) : IntSM := addI B x (negI y)

/-- Embeds `integer::operator*`: a zero product is re-canonicalized to the
default (positive zero) integer. -/
def mulI (x y : IntSM) : IntSM :=
  let m := mul B x.magnitude y.magnitude
  if m = List.replicate m.length 0 then default m.length
  else ⟨x.positive == y.positive, m⟩

/-- Embeds `integer::operator/`. -/
def divI (x y : IntSM) : IntSM :=
  let m := divN B x.magnitude y.magnitude
  if m = List.replicate m.length 0 then default m.length
  else ⟨x.positive == y.positive, m⟩

/-- Embeds `integer::operator%`: the result takes the dividend's sign
unless the magnitude is zero. -/
def modI (x y : IntSM) : IntSM :=
  let m := modN B x.magnitude y.magnitude
  ⟨if m = List.replicate m.length 0 then true else x.positive, m⟩

/-- Embeds the defaulted `integer::operator<=>`: member-wise comparison of
`(positive_, magnitude_)` with `false < true` on the flag and the number
comparison on the magnitude. -/
def cmpI (x y : IntSM) : Ordering :=
  if x.positive = y.positive then Number.cmp x.magnitude y.magnitude
  else if x.positive then .gt else .lt

end IntegerW

/-! Claim-level theorems. -/

/-- C1: dividing by the zero value yields zero, but the modulus by zero
yields the dividend back, not zero — this is the counterexample to the
second half of the claim. -/
theorem c1_mod_by_zero_cex :
    (Number.modN 10 [5] (Number.ofNat 10 1 0) = Number.ofNat 10 1 0) = False :=
  eq_false (by decide)

/-- C1 (amended): for every valid operand, division by the zero value
returns the zero value, and the modulus by the zero value returns the
dividend unchanged. -/
theorem c1_div_mod_by_zero (B : Nat) (hB2 : 2 ≤ B) (x : List Nat)
    (hx : Number.Valid B x) :
    Number.divN B x (Number.ofNat B x.length 0) = Number.ofNat B x.length 0
    ∧ Number.modN B x (Number.ofNat B x.length 0) = x := by
  have hB : 0 < B := by omega
  have hzv : Number.val B (Number.ofNat B x.length 0) = 0 := by
    rw [Number.val_ofNat B hB, Nat.zero_mod]
  have hzlen : (Number.ofNat B x.length 0).length = x.length :=
    Number.length_ofNat B _ _
  obtain ⟨hdv, hdl, hdval⟩ :=
    Number.divN_correct B hB2 hx (Number.valid_ofNat B hB _ _) hzlen
  obtain ⟨hmv, hml, hmval⟩ :=
    Number.modN_correct B hB2 hx (Number.valid_ofNat B hB _ _) hzlen
  constructor
  · refine (Number.eqN_iff B hB hdv (Number.valid_ofNat B hB _ _)
      (by rw [hdl, hzlen])).mpr ?_
    rw [hdval, hzv, Nat.div_zero]
  · refine (Number.eqN_iff B hB hmv hx hml).mpr ?_
    rw [hmval, hzv, Nat.mod_zero]

/-- C1 witness: a concrete instance of the amended statement. -/
theorem c1_div_mod_by_zero_witness :
    Number.divN 10 [5] (Number.ofNat 10 1 0) = Number.ofNat 10 1 0
    ∧ Number.modN 10 [5] (Number.ofNat 10 1 0) = [5] :=
  c1_div_mod_by_zero 10 (by omega) [5] (by decide)

/-- C2: for a nonzero divisor the Euclidean identity
`(a / b) * b + (a % b) = a` holds exactly in the fixed-width type. -/
theorem c2_euclidean_identity (B : Nat) (hB2 : 2 ≤ B) (x y : List Nat)
    (hx : Number.Valid B x) (hy : Number.Valid B y)
    (hlen : y.length = x.length) (hynz : Number.val B y ≠ 0) :
    Number.add B (Number.mul B (Number.divN B x y) y) (Number.modN B x y) = x := by
  have hB : 0 < B := by omega
  obtain ⟨hdv, hdl, hdval⟩ := Number.divN_correct B hB2 hx hy hlen
  obtain ⟨hmv, hml, hmval⟩ := Number.modN_correct B hB2 hx hy hlen
  have hprod : Number.val B (Number.divN B x y) * Number.val B y
      < B ^ (Number.divN B x y).length := by
    rw [hdval, hdl]
    have h1 : Number.val B x / Number.val B y * Number.val B y ≤ Number.val B x :=
      Nat.div_mul_le_self _ _
    have h2 := Number.val_lt B hx
    omega
  have hmulv : Number.val B (Number.mul B (Number.divN B x y) y)
      = Number.val B x / Number.val B y * Number.val B y := by
    rw [Number.val_mul_exact B hB hdv hy hprod, hdval]
  have hmullen : (Number.mul B (Number.divN B x y) y).length = x.length := by
    rw [Number.length_mul, hdl]
  refine (Number.eqN_iff B hB
    (Number.valid_add B hB _ _) hx
    (by rw [Number.length_add, hmullen])).mpr ?_
  rw [Number.val_add B hB (Number.valid_mul B hB _ _) hmv (by rw [hmullen, hml]),
    hmulv, hmval, hmullen, Nat.div_add_mod' (Number.val B x) (Number.val B y)]
  exact Nat.mod_eq_of_lt (Number.val_lt B hx)

/-- C2 witness: `37 / 4 * 4 + 37 % 4 = 37` in two decimal digits. -/
theorem c2_euclidean_identity_witness :
    Number.add 10 (Number.mul 10 (Number.divN 10 [7, 3] [4, 0]) [4, 0])
      (Number.modN 10 [7, 3] [4, 0]) = [7, 3] :=
  c2_euclidean_identity 10 (by omega) [7, 3] [4, 0] (by decide) (by decide) rfl
    (by decide)

/-- C3: the defaulted `operator<=>` compares magnitudes of two negative
values directly, so `-5` compares greater than `-3` even though it is
numerically smaller — the claimed reversal for negative values does not
happen. -/
theorem c3_defaulted_comparison_bug :
    IntegerW.cmpI (IntegerW.ofInt 10 1 (-5)) (IntegerW.ofInt 10 1 (-3))
      = Ordering.gt
    ∧ (-5 : Int) < (-3 : Int) := by decide

/-- C4: `pow` tests `exponent.digit(0) & 1`, which is the low bit of the
least-significant digit, not the exponent modulo two; in base 3 the
exponent 3 has digits `[0, 1]`, its tested bit is 0 while `3 % 2 = 1`, and
`2 ^ 3` comes out as 4 instead of 8. -/
theorem c4_pow_odd_base_bug :
    Number.powF 3 5 (Number.ofNat 3 2 1) (Number.ofNat 3 2 2)
      (Number.ofNat 3 2 3) = some (Number.ofNat 3 2 4)
    ∧ 2 ^ 3 % 3 ^ 2 = 8
    ∧ Number.digit (Number.ofNat 3 2 3) 0 % 2 = 0
    ∧ Number.val 3 (Number.ofNat 3 2 3) % 2 = 1 := by decide

/-- C5: fixed-width add, sub and mul of native values, converted back to a
wide-enough native integer, agree with the native operations reduced
modulo the width's capacity `B ^ L` (subtraction stated over `Int` since
the wrapped difference is `a - b` modulo `B ^ L`). -/
theorem c5_native_ops_mod (B L w a b : Nat) (hB2 : 2 ≤ B) (hw : 1 ≤ w)
    (hcap : B ^ L ≤ 2 ^ w) :
    Number.conv B w (Number.add B (Number.ofNat B L a) (Number.ofNat B L b))
      = (a + b) % B ^ L
    ∧ (Number.conv B w (Number.sub B (Number.ofNat B L a) (Number.ofNat B L b))
        : Int) = ((a : Int) - (b : Int)) % ((B ^ L : Nat) : Int)
    ∧ Number.conv B w (Number.mul B (Number.ofNat B L a) (Number.ofNat B L b))
      = a * b % B ^ L := by
  have hB : 0 < B := by omega
  have hp : 0 < B ^ L := Nat.pos_pow_of_pos _ hB
  have hlen : (Number.ofNat B L a).length = (Number.ofNat B L b).length := by
    rw [Number.length_ofNat, Number.length_ofNat]
  have hva : Number.val B (Number.ofNat B L a) = a % B ^ L := Number.val_ofNat B hB L a
  have hvb : Number.val B (Number.ofNat B L b) = b % B ^ L := Number.val_ofNat B hB L b
  have hlena : (Number.ofNat B L a).length = L := Number.length_ofNat B L a
  have hvadd : Number.val B (Number.add B (Number.ofNat B L a) (Number.ofNat B L b))
      = (a + b) % B ^ L := by
    rw [Number.val_add B hB (Number.valid_ofNat B hB _ _)
      (Number.valid_ofNat B hB _ _) hlen, hva, hvb, hlena]
    conv_rhs => rw [Nat.add_mod]
  have hvsub : Number.val B (Number.sub B (Number.ofNat B L a) (Number.ofNat B L b))
      = (a % B ^ L + B ^ L - b % B ^ L) % B ^ L := by
    rw [Number.val_sub B hB (Number.valid_ofNat B hB _ _)
      (Number.valid_ofNat B hB _ _) hlen, hva, hvb, hlena]
  have hvmul : Number.val B (Number.mul B (Number.ofNat B L a) (Number.ofNat B L b))
      = a * b % B ^ L := by
    rw [Number.val_mul B hB (Number.valid_ofNat B hB _ _)
      (Number.valid_ofNat B hB _ _), hva, hvb, hlena]
    conv_rhs => rw [Nat.mul_mod]
  refine ⟨?_, ?_, ?_⟩
  · rw [Number.conv_exact B hB hw (Number.valid_add B hB _ _)
      (by rw [hvadd]; exact Nat.lt_of_lt_of_le (Nat.mod_lt _ hp) hcap), hvadd]
  · rw [Number.conv_exact B hB hw (Number.valid_sub B hB _ _)
      (by rw [hvsub]; exact Nat.lt_of_lt_of_le (Nat.mod_lt _ hp) hcap), hvsub]
    have haux := Number.int_sub_emod_aux (a % B ^ L) (b % B ^ L) (B ^ L)
      (Nat.mod_lt _ hp) (Nat.mod_lt _ hp)
    rw [haux]
    conv_rhs => rw [Int.sub_emod]
    rw [← Int.natCast_mod, ← Int.natCast_mod, Int.sub_emod]
  · rw [Number.conv_exact B hB hw (Number.valid_mul B hB _ _)
      (by rw [hvmul]; exact Nat.lt_of_lt_of_le (Nat.mod_lt _ hp) hcap), hvmul]

/-- C5 witness: `57` and `68` in two decimal digits, converted to 8 bits. -/
theorem c5_native_ops_mod_witness :
    Number.conv 10 8 (Number.add 10 (Number.ofNat 10 2 57) (Number.ofNat 10 2 68))
      = (57 + 68) % 10 ^ 2
    ∧ (Number.conv 10 8
        (Number.sub 10 (Number.ofNat 10 2 57) (Number.ofNat 10 2 68)) : Int)
      = ((57 : Int) - (68 : Int)) % ((10 ^ 2 : Nat) : Int)
    ∧ Number.conv 10 8 (Number.mul 10 (Number.ofNat 10 2 57) (Number.ofNat 10 2 68))
      = 57 * 68 % 10 ^ 2 :=
  c5_native_ops_mod 10 2 8 57 68 (by omega) (by omega) (by norm_num)

/-- C6: a stored value of 10000 in five decimal digits converted to an
8-bit target yields 0, not `10000 % 2 ^ 8 = 16` — the counterexample to
the claimed wraparound semantics for values that do not fit. -/
theorem c6_conversion_truncation_cex :
    (Number.conv 10 8 (Number.ofNat 10 5 10000) = 10000 % 2 ^ 8) = False :=
  eq_false (by decide)

/-- C6 (amended): the conversion to a `w`-bit native target is exact
whenever the stored value fits in `w` bits. -/
theorem c6_conversion_fits (B w : Nat) (l : List Nat) (hB : 0 < B)
    (hw : 1 ≤ w) (h : Number.Valid B l) (hv : Number.val B l < 2 ^ w) :
    Number.conv B w l = Number.val B l :=
  Number.conv_exact B hB hw h hv

/-- C6 witness: `123` in three decimal digits fits in 8 bits. -/
theorem c6_conversion_fits_witness :
    Number.conv 10 8 [3, 2, 1] = Number.val 10 [3, 2, 1] :=
  c6_conversion_fits 10 8 [3, 2, 1] (by omega) (by omega) (by decide) (by decide)

/-- C9: adding `-4` and `-6` in one decimal digit wraps the magnitude sum
to zero while keeping the negative sign, producing a negative zero and
violating the canonical-zero invariant. -/
theorem c9_negative_zero_bug :
    (IntegerW.addI 10 (IntegerW.ofInt 10 1 (-4))
      (IntegerW.ofInt 10 1 (-6))).positive = false
    ∧ (IntegerW.addI 10 (IntegerW.ofInt 10 1 (-4))
        (IntegerW.ofInt 10 1 (-6))).magnitude = [0] := by decide

/-- C10: raising any value, including zero, to the zero exponent returns
one: the loop body is never entered, so the initial `result = 1` is
returned for every fuel bound. -/
theorem c10_pow_zero_exponent (B fuel L : Nat) (a : List Nat) :
    Number.powF B fuel (Number.ofNat B L 1) a (Number.ofNat B L 0)
      = some (Number.ofNat B L 1) := by
  have h0 : Number.ofNat B L 0 = List.replicate L 0 := Number.ofNat_zero B L
  have hcond : Number.ofNat B L 0
      = List.replicate (Number.ofNat B L 0).length 0 := by
    rw [h0, List.length_replicate]
  cases fuel with
  | zero =>
    show (if Number.ofNat B L 0 = List.replicate (Number.ofNat B L 0).length 0
      then some (Number.ofNat B L 1) else none) = some (Number.ofNat B L 1)
    rw [if_pos hcond]
  | succ f =>
    show (if Number.ofNat B L 0 = List.replicate (Number.ofNat B L 0).length 0
      then some (Number.ofNat B L 1)
      else Number.powF B f _ _ _) = some (Number.ofNat B L 1)
    rw [if_pos hcond]

/-- C7: with width one base-3 digit, the numeric bases 10 and 16 reduce to
the in-width value 1, division by one leaves the value unchanged, and
`to_string` of the nonzero value 2 never terminates — no fuel bound
produces a string, so the claimed round trip fails. -/
theorem c7_round_trip_cex :
    (∃ fuel s, Number.toStringF 3 (Number.ofNat 3 1 10) fuel [2] = some s
      ∧ Number.from_string 3 1 10 s = some [2]) = False := by
  apply eq_false
  rintro ⟨fuel, s, hts, _⟩
  rw [Number.toStringF_diverges_example fuel] at hts
  cases hts

/-- C7 (amended): for every nonzero value and base in {2, 8, 10, 16},
provided the base does not reduce to the in-width value 1 (in which case
`to_string` never terminates), printing terminates and parsing the printed
string recovers the value exactly. -/
theorem c7_round_trip (B L base : Nat) (hB2 : 2 ≤ B) (a : List Nat)
    (ha : Number.Valid B a) (halen : a.length = L)
    (hanz : Number.val B a ≠ 0)
    (hbase : base = 2 ∨ base = 8 ∨ base = 10 ∨ base = 16)
    (hnot1 : Number.val B (Number.ofNat B L base) ≠ 1) :
    ∃ s, Number.toStringF B (Number.ofNat B L base) (Number.val B a + 1) a
        = some s
      ∧ Number.from_string B L base s = some a := by
  have hB : 0 < B := by omega
  have hane : a ≠ [] := by
    intro h
    rw [h, Number.val_nil] at hanz
    exact hanz rfl
  have hL1 : 1 ≤ L := by
    have h := List.length_pos.mpr hane
    omega
  have hBL2 : 2 ≤ B ^ L := by
    have h1 : B ≤ B ^ L := Nat.le_self_pow (by omega) B
    omega
  have hb16 : base ≤ 16 := by rcases hbase with h | h | h | h <;> omega
  have hb2 : 2 ≤ base := by rcases hbase with h | h | h | h <;> omega
  have hbv : Number.val B (Number.ofNat B L base) = base % B ^ L :=
    Number.val_ofNat B hB L base
  have hblen : (Number.ofNat B L base).length = L := Number.length_ofNat B L base
  have hbvalid : Number.Valid B (Number.ofNat B L base) :=
    Number.valid_ofNat B hB L base
  have hva : Number.val B a < B ^ L := by
    have h := Number.val_lt B ha
    rwa [halen] at h
  have hnrep : a ≠ List.replicate a.length 0 :=
    fun h => hanz ((Number.val_eq_zero_iff B hB ha).mpr h)
  rcases Nat.eq_zero_or_pos (Number.val B (Number.ofNat B L base)) with hv0 | hvpos
  · -- the base wraps to zero in width L: one digit is printed, then the
    -- next division by the zero value yields zero and the loop stops
    have hdvd : B ^ L ∣ base := Nat.dvd_of_mod_eq_zero (by rw [← hbv]; exact hv0)
    have hble2 : B ^ L ≤ base := Nat.le_of_dvd (by omega) hdvd
    have hvab : Number.val B a < base := by omega
    have hva16 : Number.val B a < 16 := by omega
    obtain ⟨hdvv, hdvl, hdvval⟩ :=
      Number.divN_correct B hB2 ha hbvalid (by rw [hblen, halen])
    obtain ⟨hmvv, hmvl, hmvval⟩ :=
      Number.modN_correct B hB2 ha hbvalid (by rw [hblen, halen])
    have hdig : Number.conv B 32 (Number.modN B a (Number.ofNat B L base))
        = Number.val B a := by
      rw [Number.conv_exact B hB (by omega) hmvv ?_, hmvval, hv0, Nat.mod_zero]
      rw [hmvval, hv0, Nat.mod_zero]
      calc Number.val B a < 16 := hva16
      _ < 2 ^ 32 := by norm_num
    have hdiv0 : Number.val B (Number.divN B a (Number.ofNat B L base)) = 0 := by
      rw [hdvval, hv0, Nat.div_zero]
    have hdivrep : Number.divN B a (Number.ofNat B L base)
        = List.replicate (Number.divN B a (Number.ofNat B L base)).length 0 :=
      (Number.val_eq_zero_iff B hB hdvv).mp hdiv0
    have hdec : Number.decodeLSF base [Number.digitChar (Number.val B a)]
        = some (Number.val B a) := by
      rw [Number.decodeLSF_cons,
        Number.decode_digitChar base hvab hva16]
      show some (Number.val B a + base * 0) = some (Number.val B a)
      rw [Nat.mul_zero, Nat.add_zero]
    obtain ⟨out, ho, hov, hol, hoval⟩ :=
      Number.from_string_parse B hB hBL2
        (s := [Number.digitChar (Number.val B a)]) hdec
    have hout : out = a := by
      refine (Number.eqN_iff B hB hov ha (by rw [hol, halen])).mpr ?_
      rw [hoval, Nat.mod_eq_of_lt hva]
    refine ⟨[Number.digitChar (Number.val B a)], ?_, ?_⟩
    · rw [Number.toStringF_succ, if_neg hnrep,
        Number.toStringF_zero B (Number.ofNat B L base) (Number.val B a) hdivrep,
        hdig]
      rfl
    · rw [hout] at ho
      exact ho
  · have hbv2 : 2 ≤ Number.val B (Number.ofNat B L base) := by omega
    have hble : Number.val B (Number.ofNat B L base) ≤ base := by
      rw [hbv]
      exact Nat.mod_le _ _
    have hbm : base ≡ Number.val B (Number.ofNat B L base) [MOD B ^ L] := by
      rw [hbv]
      exact (Nat.mod_modEq base (B ^ L)).symm
    have hfuel : Number.val B a
        < Number.val B (Number.ofNat B L base) ^ (Number.val B a + 1) := by
      calc Number.val B a < 2 ^ Number.val B a := Nat.lt_two_pow _
      _ ≤ 2 ^ (Number.val B a + 1) := Nat.pow_le_pow_right (by omega) (by omega)
      _ ≤ Number.val B (Number.ofNat B L base) ^ (Number.val B a + 1) :=
          Nat.pow_le_pow_left hbv2 _
    obtain ⟨s, v, hs, hsd, hsm⟩ := Number.toStringF_spec B hB2 hbvalid hblen
      hbv2 hble hb16 hbm (Number.val B a + 1) a ha halen hfuel
    obtain ⟨out, ho, hov, hol, hoval⟩ :=
      Number.from_string_parse B hB hBL2 hsd
    have hout : out = a := by
      refine (Number.eqN_iff B hB hov ha (by rw [hol, halen])).mpr ?_
      have hsm2 : v % B ^ L = Number.val B a % B ^ L := hsm
      rw [hoval, hsm2, Nat.mod_eq_of_lt hva]
    refine ⟨s, hs, ?_⟩
    rw [hout] at ho
    exact ho

/-- C7 witness: the two-decimal-digit value 42 printed in base 10 and
parsed back. -/
theorem c7_round_trip_witness :
    ∃ s, Number.toStringF 10 (Number.ofNat 10 2 10) (Number.val 10 [2, 4] + 1)
        [2, 4] = some s
      ∧ Number.from_string 10 2 10 s = some [2, 4] :=
  c7_round_trip 10 2 10 (by omega) [2, 4] (by decide) rfl (by decide)
    (Or.inr (Or.inr (Or.inl rfl))) (by decide)

/-- C8: `from_string` fails exactly when some input character fails to
decode to a digit value below the base, and the empty string parses to the
zero value. -/
theorem c8_from_string_failure (B L base : Nat) (s : List Char) :
    (Number.from_string B L base s = none
      ↔ ∃ c ∈ s, Number.decode_char base c = none)
    ∧ Number.from_string B L base [] = some (Number.ofNat B L 0) := by
  constructor
  · show Number.fromStringGo B L base s.reverse (List.replicate L 0)
        (Number.ofNat B L 1) = none ↔ _
    rw [Number.fromStringGo_none B L base s.reverse]
    constructor
    · rintro ⟨c, hm, hc⟩
      exact ⟨c, List.mem_reverse.mp hm, hc⟩
    · rintro ⟨c, hm, hc⟩
      exact ⟨c, List.mem_reverse.mpr hm, hc⟩
  · show some (List.replicate L 0) = some (Number.ofNat B L 0)
    rw [Number.ofNat_zero]
